import Mathlib

/-!
# Verification of a Huffman file-compression codec

Shallow embedding of the codec pipeline (frequency analysis, Huffman tree
construction, encoding-map derivation, bit-level encode/decode, header
serialization, and the compress/decompress container round-trip) together
with the chained hash table (`hashmap`) used for the frequency header.

Modelling conventions:
* C++ `int` values carried in data structures (symbol keys, counts) are
  modelled as unbounded `Int`; all arithmetic the program performs on them
  stays far below `2^31` except inside `hashFunction`, whose 32-bit wrapping
  is modelled explicitly (`% 2^32`), matching the unsigned arithmetic in the
  source.
* `char` is signed on the reference platform (g++/x86-64, per the makefile),
  so a byte `b` read from a stream converts to the `int` value `b` when
  `b < 128` and `b - 256` otherwise (`charToInt`).
* Streams are modelled as lists: a byte source is a `List Nat` (each < 256),
  a bit stream is a `List Bool` (`true` = bit 1).  Reading past the end of a
  C++ stream yields `EOF` and sets the eof flag; the models mirror this with
  explicit end-of-list cases.
* Fallible paths (C++ exceptions, null-pointer dereference, non-terminating
  parses on malformed input) are modelled with `Except`/`Option` results.
-/

/-- Signed-`char` reinterpretation of a byte: the value `int(c)` takes in the
source when the byte `b` is stored in a (signed) `char`. -/
def charToInt (b : Nat) : Int :=
  if b < 128 then (b : Int) else (b : Int) - 256

/-- The byte written by `output.put(char(v))` / appended by `decoded += char(v)`:
truncation of an `int` to an unsigned byte. -/
def byteOf (v : Int) : Nat :=
  (v % 256).toNat

/-- Reinterpret a (possibly negative) `int` as a 32-bit unsigned value. -/
def toU32 (x : Int) : Nat :=
  (x % 4294967296).toNat

/-- Arithmetic right shift by 16 of a 32-bit signed value given as its
unsigned bit pattern (`input >> 16` on a signed `int` in the source). -/
def sarSixteen (u : Nat) : Nat :=
  if u < 2147483648 then u / 65536 else u / 65536 + 4294901760

/-- `hashmap::hashFunction`: two rounds of xor-shift-multiply over 32-bit
unsigned arithmetic, then absolute value of the signed reinterpretation. -/
def hashFunction (input : Int) : Nat :=
  let u : Nat := toU32 input
  let t1 : Nat := ((Nat.xor (sarSixteen u) u) * 0x45d9f3b) % 4294967296
  let t2 : Nat := ((Nat.xor (t1 / 65536) t1) * 0x45d9f3b) % 4294967296
  let t3 : Nat := Nat.xor (t2 / 65536) t2
  if t3 < 2147483648 then t3 else 4294967296 - t3

/-- Bucket index chosen by `put`/`get`/`containsKey`: `hashFunction(key) % nBuckets`
with `nBuckets = 10` fixed by the constructor. -/
def bucketOf (key : Int) : Fin 10 :=
  ⟨hashFunction key % 10, Nat.mod_lt _ (by norm_num)⟩

/-- One bucket: the linked list of key/value pairs hanging off a bucket head. -/
abbrev Bucket := List (Int × Int)

/-- The `hashmap` class: ten bucket chains plus the element counter `nElems`. -/
structure hashmap where
  buckets : Fin 10 → Bucket
  nElems : Nat

/-- The freshly constructed map: all bucket heads null, `nElems = 0`. -/
def emptyHashmap : hashmap :=
  ⟨fun _ => [], 0⟩

/-- `hashmap::put` restricted to one chain: overwrite the value in place if the
key is found while traversing, otherwise append a new node at the tail. -/
def putChain (key value : Int) : Bucket → Bucket
  | [] => [(key, value)]
  | (k, v) :: rest =>
      if k = key then (k, value) :: rest else (k, v) :: putChain key value rest

/-- Chain lookup used by `get`/`containsKey`: first pair with the given key. -/
def chainFind (key : Int) (c : Bucket) : Option Int :=
  (c.find? (fun p => p.1 = key)).map (·.2)

/-- `hashmap::put`: insert or overwrite in the bucket selected by the hash;
`nElems` grows only when the key was absent from that bucket. -/
def hashmap.put (m : hashmap) (key value : Int) : hashmap :=
  let i := bucketOf key
  { buckets := Function.update m.buckets i (putChain key value (m.buckets i)),
    nElems := if (chainFind key (m.buckets i)).isSome then m.nElems else m.nElems + 1 }

/-- `hashmap::get`: throws the raw string when the bucket head is null;
otherwise scans the chain and returns the value if found — and, when the key
is absent from a non-empty chain, falls through the loop to
`return saveValue;` (`saveValue = 0`), i.e. returns 0 as a normal value. -/
def hashmap.get (m : hashmap) (key : Int) : Except String Int :=
  match m.buckets (bucketOf key) with
  | [] => .error "Error: Key is not in map."
  | c :: rest =>
      match chainFind key (c :: rest) with
      | some v => .ok v
      | none => .ok 0

/-- The value `get` yields for a present key (and the default 0 used by the
fall-through path); total companion of `hashmap.get` used where the source
calls `get` on a key it has just confirmed present. -/
def hashmap.getVal (m : hashmap) (key : Int) : Int :=
  (chainFind key (m.buckets (bucketOf key))).getD 0

/-- `hashmap::containsKey`: scan the key's bucket chain. -/
def hashmap.containsKey (m : hashmap) (key : Int) : Bool :=
  (m.buckets (bucketOf key)).any (fun p => p.1 = key)

/-- `hashmap::keys`: walk buckets 0..9 in order, each chain front to back. -/
def hashmap.keys (m : hashmap) : List Int :=
  (List.finRange 10).flatMap (fun i => (m.buckets i).map Prod.fst)

/-- `hashmap::size`: the `nElems` counter. -/
def hashmap.size (m : hashmap) : Nat :=
  m.nElems

/-- Structural well-formedness every map built through `put` enjoys: each
chain holds pairwise-distinct keys, every key sits in the bucket its hash
selects, and `nElems` counts the stored pairs. -/
def hashmap.WF (m : hashmap) : Prop :=
  (∀ i : Fin 10, ((m.buckets i).map Prod.fst).Nodup
      ∧ ∀ p ∈ m.buckets i, bucketOf p.1 = i)
    ∧ m.nElems = ∑ i : Fin 10, (m.buckets i).length

/-! ## Header serialization (`operator<<`) -/

/-- Decimal digit accumulation, fuelled so that the kernel can evaluate it
(the fuel strictly bounds the number, so it never runs out). -/
def natDigitsAux : Nat → Nat → List Nat
  | 0, _ => []
  | fuel + 1, n =>
      if n < 10 then [48 + n] else natDigitsAux fuel (n / 10) ++ [48 + n % 10]

/-- Decimal digit characters of a natural number, most significant first
(the byte sequence `out << n` produces for `n ≥ 0`). -/
def natDigits (n : Nat) : List Nat :=
  natDigitsAux (n + 1) n

/-- Byte sequence `out << i` produces for an `int` (minus sign then digits). -/
def intChars (i : Int) : List Nat :=
  if i < 0 then 45 :: natDigits (-i).toNat else natDigits i.toNat

/-- One `key:value` entry of the serialized header. -/
def entryBytes (p : Int × Int) : List Nat :=
  intChars p.1 ++ 58 :: intChars p.2

/-- Entries joined by `", "` (comma, space), no trailing separator. -/
def joinEntries : List (Int × Int) → List Nat
  | [] => []
  | [p] => entryBytes p
  | p :: q :: rest => entryBytes p ++ 44 :: 32 :: joinEntries (q :: rest)

/-- The key/value pairs of a map in iteration order (`keys()` order, each
value read back with `get`, which returns the stored value for present keys). -/
def hashmap.pairs (m : hashmap) : List (Int × Int) :=
  m.keys.map (fun k => (k, m.getVal k))

/-- `operator<<`: `{` then `key:value` entries in iteration order separated
by `", "`, then `}` (brace = byte 123/125, colon 58, comma 44, space 32). -/
def hashmap.serializeBytes (m : hashmap) : List Nat :=
  123 :: joinEntries m.pairs ++ [125]

/-! ## Header deserialization (`operator>>`) -/

/-- `in.get()`: next byte as an `int`, or `EOF` (-1) when exhausted. -/
def streamGet : List Nat → Int × List Nat
  | [] => (-1, [])
  | c :: r => ((c : Int), r)

/-- The inner `while (nextChar != ',' and nextChar != '}')` loop: collect
characters until a separator; `none` when the stream is exhausted first (the
C++ loop then spins on `EOF` forever). -/
def readUntilSep (nextChar : Int) (rest : List Nat) :
    Option (List Int × Int × List Nat) :=
  if nextChar = 44 ∨ nextChar = 125 then some ([], nextChar, rest)
  else
    match rest with
    | [] => none
    | c :: r =>
        (readUntilSep (c : Int) r).map (fun t => (nextChar :: t.1, t.2.1, t.2.2))

/-- `stoi`'s digit-run accumulator: consume leading decimal digits. -/
def parseDigits (acc : Nat) : List Int → Nat × List Int
  | [] => (acc, [])
  | c :: r =>
      if 48 ≤ c ∧ c ≤ 57 then parseDigits (acc * 10 + (c - 48).toNat) r
      else (acc, c :: r)

/-- Body of `stoi` after whitespace skipping: optional sign, then at least
one digit (`none` models the `std::invalid_argument` throw). -/
def stoiCore : List Int → Option Int
  | [] => none
  | c :: r =>
      if c = 45 ∨ c = 43 then
        match r with
        | [] => none
        | c2 :: r2 =>
            if 48 ≤ c2 ∧ c2 ≤ 57 then
              if c = 45 then some (-(Int.ofNat (parseDigits (c2 - 48).toNat r2).1))
              else some (Int.ofNat (parseDigits (c2 - 48).toNat r2).1)
            else none
      else if 48 ≤ c ∧ c ≤ 57 then some (Int.ofNat (parseDigits (c - 48).toNat r).1)
      else none

/-- `std::stoi`: skip leading whitespace, then parse the sign and digits. -/
def stoi (s : List Int) : Option Int :=
  stoiCore (s.dropWhile (fun c => c = 32 ∨ c = 9 ∨ c = 10 ∨ c = 11 ∨ c = 12 ∨ c = 13))

/-- Split `nextInput` at the first `:` as the source does with `find`/`substr`
(`substr(pos+1, length()-1)` clamps to the rest of the string; when no `:`
exists, `pos` is `npos` and `pos+1` wraps to 0, keeping all but the count). -/
def splitEntry (e : List Int) : List Int × List Int :=
  match e.findIdx? (fun c => c = 58) with
  | some p => (e.take p, (e.drop (p + 1)).take (e.length - 1))
  | none => (e, e.take (e.length - 1))

/-- Process one collected `key:value` entry: empty input is skipped (the
empty-map `{}` special case), otherwise `put(stoi(key), stoi(value))`. -/
def putEntry (m : hashmap) (entry : List Int) : Option hashmap :=
  if entry = [] then some m
  else
    match stoi (splitEntry entry).1, stoi (splitEntry entry).2 with
    | some k, some v => some (m.put k v)
    | _, _ => none

/-- The outer `while (!done)` loop of `operator>>`, fuelled (each round
consumes input; malformed/exhausted input yields `none`).  After a `,`
terminator the space and the following character are read before the entry
is stored and the loop continues; after `}` the entry is stored and the
loop ends. -/
def parseHLoop : Nat → hashmap → Int → List Nat → Option (hashmap × List Nat)
  | 0, _, _, _ => none
  | fuel + 1, m, nc, rest =>
      (readUntilSep nc rest).bind (fun t =>
        if t.2.1 = 44 then
          (putEntry m t.1).bind (fun m' =>
            parseHLoop fuel m' (streamGet (streamGet t.2.2).2).1
              (streamGet (streamGet t.2.2).2).2)
        else
          (putEntry m t.1).map (fun m' => (m', t.2.2)))

/-- `operator>>` reading into an existing map `m`: consume the opening byte
unchecked, read the first real character, run the entry loop; returns the
updated map and the bytes left after the closing `}`. -/
def hashmap.deserializeInto (m : hashmap) (l : List Nat) :
    Option (hashmap × List Nat) :=
  let r0 := (streamGet l).2
  let nc := (streamGet r0).1
  let r1 := (streamGet r0).2
  parseHLoop (l.length + 1) m nc r1

/-! ## Huffman tree (`HuffmanNode`, `build_htree`, `buildEncodingTree`) -/

/-- A `HuffmanNode*` as the builder creates them: a leaf carries the symbol
(`character` field) and its count, with both child pointers null; an internal
node carries `character = 257` (`NOT_A_CHAR`), a count, and two children. -/
inductive HuffmanNode where
  | leaf (character : Int) (count : Int)
  | internal (count : Int) (zero : HuffmanNode) (one : HuffmanNode)
deriving DecidableEq

/-- The `character` field: internal nodes are created with 257. -/
def HuffmanNode.character : HuffmanNode → Int
  | .leaf c _ => c
  | .internal _ _ _ => 257

/-- The `count` field. -/
def HuffmanNode.count : HuffmanNode → Int
  | .leaf _ n => n
  | .internal n _ _ => n

/-- The `zero` child pointer (`none` = null). -/
def HuffmanNode.zero : HuffmanNode → Option HuffmanNode
  | .leaf _ _ => none
  | .internal _ z _ => some z

/-- The `one` child pointer (`none` = null). -/
def HuffmanNode.one : HuffmanNode → Option HuffmanNode
  | .leaf _ _ => none
  | .internal _ _ o => some o

/-- The child selected by a bit (`node->zero` on 0, `node->one` on 1). -/
def HuffmanNode.childOf (n : HuffmanNode) (b : Bool) : Option HuffmanNode :=
  if b then n.one else n.zero

/-- The priority queue `priority_queue<HuffmanNode*, vector<HuffmanNode*>,
prioritize>` as a count-ascending list (front = top = minimum count).
`std::priority_queue`'s order among equal counts is unspecified (the spec
pins no tie-break rule and warns not to rely on one); this model inserts
after existing equal counts.  Every theorem below is invariant under the
tie-break choice. -/
def pqInsert (n : HuffmanNode) : List HuffmanNode → List HuffmanNode
  | [] => [n]
  | m :: rest =>
      if n.count < m.count then n :: m :: rest else m :: pqInsert n rest

/-- The merge loop of `build_htree`, fuelled by the queue length (each merge
shrinks the queue by one, so the fuel never runs out). -/
def build_htreeAux : Nat → List HuffmanNode → List HuffmanNode
  | 0, l => l
  | fuel + 1, l =>
      match l with
      | a :: b :: rest =>
          build_htreeAux fuel (pqInsert (.internal (a.count + b.count) a b) rest)
      | _ => l

/-- `build_htree`: while more than one node remains, pop the two minimum-count
nodes, link them under a fresh internal node (`character = 257`, count = sum,
zero-branch = first popped, one-branch = second popped), and reinsert. -/
def build_htree (l : List HuffmanNode) : List HuffmanNode :=
  build_htreeAux l.length l

/-- `buildEncodingTree`: one leaf per table key (in `keys()` order) pushed
into the priority queue, then `build_htree`; `pq.top()` on the result
(`none` models the undefined `top()` on an empty queue, which only an empty
table could produce). -/
def buildEncodingTree (m : hashmap) : Option HuffmanNode :=
  (build_htree (m.keys.foldl
      (fun pq e => pqInsert (.leaf e (m.getVal e)) pq) [])).head?

/-! ## Encoding map (`_buildEncodingMap`, `buildEncodingMap`) -/

/-- `unordered_map<int,string>::insert`: no-op when the key is present. -/
def emInsert (em : List (Int × String)) (k : Int) (v : String) :
    List (Int × String) :=
  if em.any (fun p => p.1 = k) then em else em ++ [(k, v)]

/-- `unordered_map::find`-style lookup into the encoding map. -/
def emFind (em : List (Int × String)) (k : Int) : Option String :=
  (em.find? (fun p => p.1 = k)).map (·.2)

/-- `operator[]` as the encoder uses it: a missing key default-constructs the
empty string. -/
def emIndex (em : List (Int × String)) (k : Int) : String :=
  (emFind em k).getD ""

/-- `_buildEncodingMap`: recurse into the zero child (appending `'0'`) when
non-null, then the one child (appending `'1'`), then record
`character ↦ accumulated string` unless `character = 257`. -/
def buildEncodingMapAux : HuffmanNode → List (Int × String) → String →
    List (Int × String)
  | .leaf c _, em, str => if c ≠ 257 then emInsert em c str else em
  | .internal _ z o, em, str =>
      let em1 := buildEncodingMapAux z em (str ++ "0")
      buildEncodingMapAux o em1 (str ++ "1")

/-- `buildEncodingMap`: run the recursive helper from the root with an empty
map and empty accumulated string. -/
def buildEncodingMap (tree : HuffmanNode) : List (Int × String) :=
  buildEncodingMapAux tree [] ""

/-! ## Encoder (`encode`) and bit conversion -/

/-- `writeBit` conversion used on the encoded string: character `'0'` writes
bit 0, anything else writes bit 1. -/
def bitsOfString (s : String) : List Bool :=
  s.data.map (fun c => !(c = '0'))

/-- `encode`: append each input character's codeword (via `operator[]`), then
the end-of-stream symbol's codeword; the returned string is the bit pattern,
and the `size` out-parameter accumulates exactly its length. -/
def encode (input : List Nat) (encodingMap : List (Int × String)) : String :=
  (input.foldl (fun acc c => acc ++ emIndex encodingMap (charToInt c)) "")
    ++ emIndex encodingMap 256

/-! ## Decoder (`decode`) -/

/-- `decode`'s loop: `cur` is the walking pointer, `root` the tree argument.
At a node with `character ≠ 257`: on 256 return the output so far; otherwise
emit the byte and reset to the root.  Then read one bit: exhaustion ends the
loop (returning the output so far, after a harmless null assignment the C++
code never dereferences); otherwise descend — a null child yields a
dereference crash on the next iteration (`none`). -/
def decodeAux (root : HuffmanNode) : HuffmanNode → List Bool → Option (List Nat)
  | cur, bits =>
      if cur.character = 257 then
        match bits with
        | [] => some []
        | b :: rest =>
            match cur.childOf b with
            | none => none
            | some nxt => decodeAux root nxt rest
      else if cur.character = 256 then some []
      else
        match bits with
        | [] => some [byteOf cur.character]
        | b :: rest =>
            match root.childOf b with
            | none => none
            | some nxt => (decodeAux root nxt rest).map (byteOf cur.character :: ·)

/-- `decode` proper: start walking at the root. -/
def decode (tree : HuffmanNode) (bits : List Bool) : Option (List Nat) :=
  decodeAux tree tree bits

/-! ## Bit packing (`obitstream::writeBit` / `ibitstream::readBit`) -/

/-- Value of a byte assembled bit-by-bit, first bit in the least significant
position (`SetNthBit(pos, curByte)` with `pos` counting up from 0). -/
def byteVal : List Bool → Nat
  | [] => 0
  | b :: r => (if b then 1 else 0) + 2 * byteVal r

/-- The byte loop of `writeBit`, fuelled by the bit count (each byte takes at
least one bit, so the fuel never runs out). -/
def packAux : Nat → List Bool → List Nat
  | 0, _ => []
  | fuel + 1, l =>
      match l with
      | [] => []
      | b :: r => byteVal ((b :: r).take 8) :: packAux fuel ((b :: r).drop 8)

/-- Pack a bit sequence into bytes, 8 bits per byte, LSB first, the final
partial byte zero-padded (unwritten high bits of `curByte` stay 0). -/
def pack (l : List Bool) : List Nat :=
  packAux l.length l

/-- `GetNthBit` for positions 0..7 of one byte (LSB first, as `readBit`
consumes them). -/
def unpackByte (v : Nat) : List Bool :=
  [v.testBit 0, v.testBit 1, v.testBit 2, v.testBit 3,
   v.testBit 4, v.testBit 5, v.testBit 6, v.testBit 7]

/-- The bit sequence `readBit` yields from a byte sequence. -/
def unpack (bytes : List Nat) : List Bool :=
  bytes.flatMap unpackByte

/-! ## Frequency analysis (`char_to_hash`, `buildFrequencyMap`) -/

/-- `char_to_hash`: bump the count of `int(c)` (insert with 1 when absent;
the present branch reads the old count with `get`, which returns the stored
value for a key `containsKey` just confirmed). -/
def char_to_hash (c : Nat) (h : hashmap) : hashmap :=
  if h.containsKey (charToInt c) then
    h.put (charToInt c) (h.getVal (charToInt c) + 1)
  else
    h.put (charToInt c) 1

/-- `buildFrequencyMap`: count every byte of the source (file and string
sources yield the same byte sequence), then `put(256, 1)` unconditionally. -/
def buildFrequencyMap (input : List Nat) (map : hashmap) : hashmap :=
  (input.foldl (fun m c => char_to_hash c m) map).put 256 1

/-! ## Container (`compress` / `decompress`) -/

/-- `compress`: build the frequency map, tree and encoding map, write the
serialized table as the header and the encoded bits (packed into bytes,
payload starting on a fresh byte after the header) as the payload.  `none`
models the undefined `pq.top()` of an empty table, which never occurs. -/
def compress (input : List Nat) : Option (List Nat) :=
  let frequency := buildFrequencyMap input emptyHashmap
  (buildEncodingTree frequency).map (fun encodingTree =>
    frequency.serializeBytes
      ++ pack (bitsOfString (encode input (buildEncodingMap encodingTree))))

/-- `decompress`: read the header back into a fresh map (`bs >> frequency`),
rebuild the tree from it, and decode the remaining payload bits. -/
def decompress (container : List Nat) : Option (List Nat) :=
  (emptyHashmap.deserializeInto container).bind (fun fr =>
    (buildEncodingTree fr.1).bind (fun encodingTree =>
      decode encodingTree (unpack fr.2)))

/-! ## Proof-infrastructure definitions (leaf lists, codeword paths,
decoder walk outcomes, iteration-order shape) -/

/-- The leaf nodes of a tree, left to right, as (symbol, count) pairs. -/
def leaves : HuffmanNode → List (Int × Int)
  | .leaf c n => [(c, n)]
  | .internal _ z o => leaves z ++ leaves o

/-- The leaf symbols of a tree, left to right. -/
def symbols (t : HuffmanNode) : List Int :=
  (leaves t).map Prod.fst

/-- Every internal node's count is the sum of its children's counts (what
`build_htree` establishes when linking). -/
def internalsOK : HuffmanNode → Bool
  | .leaf _ _ => true
  | .internal n z o => (n = z.count + o.count) && internalsOK z && internalsOK o

/-- Root-to-leaf paths of a tree as bit lists (`false` = zero-branch),
mirroring `_buildEncodingMap`'s traversal order and its skipping of
`character = 257`. -/
def codewords : HuffmanNode → List Bool → List (Int × List Bool)
  | .leaf c _, pre => if c = 257 then [] else [(c, pre)]
  | .internal _ z o, pre =>
      codewords z (pre ++ [false]) ++ codewords o (pre ++ [true])

/-- The same paths as the decimal-character strings `_buildEncodingMap`
accumulates. -/
def codeEntries : HuffmanNode → String → List (Int × String)
  | .leaf c _, pre => if c = 257 then [] else [(c, pre)]
  | .internal _ z o, pre =>
      codeEntries z (pre ++ "0") ++ codeEntries o (pre ++ "1")

/-- Result of walking the tree from a node until a `character ≠ 257` node is
reached: the symbol found (with remaining bits), bit exhaustion mid-walk, or
a null-child dereference. -/
inductive ConsumeR where
  | found (s : Int) (rest : List Bool)
  | exhausted
  | crash
deriving DecidableEq

/-- Walk the tree from `n`, consuming one bit per step, until reaching a node
with `character ≠ 257`. -/
def consume : HuffmanNode → List Bool → ConsumeR
  | n, bits =>
      if n.character = 257 then
        match bits with
        | [] => .exhausted
        | b :: rest =>
            match n.childOf b with
            | none => .crash
            | some c => consume c rest
      else .found n.character bits

/-- The decoder's handling of one `consume` outcome (helper for stating the
loop factorization). -/
def decodeStep (root : HuffmanNode) : ConsumeR → Option (List Nat)
  | .crash => none
  | .exhausted => some []
  | .found s rest =>
      if s = 256 then some []
      else (decodeAux root root rest).map (byteOf s :: ·)

/-- The keys of each bucket chain, in chain order: the data that determines
`keys()` and hence the header byte layout. -/
def keyShape (m : hashmap) : Fin 10 → List Int :=
  fun i => (m.buckets i).map Prod.fst

/-- A table constructed by a sequence of `put(key, value)` calls starting
from the fresh constructor state. -/
def buildFromOps (ops : List (Int × Int)) : hashmap :=
  ops.foldl (fun m p => m.put p.1 p.2) emptyHashmap

/-! ## Hashmap lemmas -/

theorem chainFind_nil (k : Int) : chainFind k [] = none := rfl

theorem chainFind_cons_self (k v : Int) (c : Bucket) :
    chainFind k ((k, v) :: c) = some v := by
  simp [chainFind, List.find?_cons_of_pos]

theorem chainFind_cons_ne (k k0 v0 : Int) (c : Bucket) (h : k0 ≠ k) :
    chainFind k ((k0, v0) :: c) = chainFind k c := by
  simp only [chainFind]
  rw [List.find?_cons_of_neg]
  simp [h]

theorem chainFind_isSome_iff (k : Int) (c : Bucket) :
    (chainFind k c).isSome ↔ ∃ v, (k, v) ∈ c := by
  induction c with
  | nil => simp [chainFind]
  | cons p rest ih =>
      obtain ⟨k0, v0⟩ := p
      by_cases h : k0 = k
      · subst h; simp [chainFind_cons_self]
      · rw [chainFind_cons_ne _ _ _ _ h, ih]
        constructor
        · rintro ⟨v, hv⟩; exact ⟨v, List.mem_cons_of_mem _ hv⟩
        · rintro ⟨v, hv⟩
          rcases List.mem_cons.mp hv with heq | hm
          · exact absurd (congrArg Prod.fst heq).symm h
          · exact ⟨v, hm⟩

theorem chainFind_eq_some_iff (k v : Int) (c : Bucket)
    (hnd : (c.map Prod.fst).Nodup) :
    chainFind k c = some v ↔ (k, v) ∈ c := by
  induction c with
  | nil => simp [chainFind]
  | cons p rest ih =>
      obtain ⟨k0, v0⟩ := p
      simp only [List.map_cons, List.nodup_cons] at hnd
      by_cases h : k0 = k
      · subst h
        rw [chainFind_cons_self]
        constructor
        · rintro h; simp at h; simp [h]
        · intro hm
          rcases List.mem_cons.mp hm with heq | hm2
          · simp at heq; simp [heq]
          · exact absurd (List.mem_map_of_mem Prod.fst hm2) (by simpa using hnd.1)
      · rw [chainFind_cons_ne _ _ _ _ h, ih hnd.2]
        constructor
        · exact fun hm => List.mem_cons_of_mem _ hm
        · intro hm
          rcases List.mem_cons.mp hm with heq | hm2
          · exact absurd (congrArg Prod.fst heq).symm h
          · exact hm2

theorem putChain_map_fst (k v : Int) (c : Bucket) :
    (putChain k v c).map Prod.fst =
      if k ∈ c.map Prod.fst then c.map Prod.fst else c.map Prod.fst ++ [k] := by
  induction c with
  | nil => simp [putChain]
  | cons p rest ih =>
      obtain ⟨k', v'⟩ := p
      simp only [putChain]
      by_cases h : k' = k
      · subst h; simp
      · simp only [if_neg h, List.map_cons, ih]
        have h2 : ¬ k = k' := fun hh => h hh.symm
        by_cases hm : k ∈ rest.map Prod.fst <;> simp [hm, h2]

theorem chainFind_putChain_self (k v : Int) (c : Bucket) :
    chainFind k (putChain k v c) = some v := by
  induction c with
  | nil => simp [putChain, chainFind_cons_self]
  | cons p rest ih =>
      obtain ⟨k', v'⟩ := p
      simp only [putChain]
      by_cases h : k' = k
      · subst h; simp [chainFind_cons_self]
      · rw [if_neg h, chainFind_cons_ne _ _ _ _ h]
        exact ih

theorem chainFind_putChain_other (k v k' : Int) (c : Bucket) (h : k' ≠ k) :
    chainFind k' (putChain k v c) = chainFind k' c := by
  induction c with
  | nil =>
      simp only [putChain, chainFind_nil]
      rw [chainFind_cons_ne _ _ _ _ (fun hh => h hh.symm), chainFind_nil]
  | cons p rest ih =>
      obtain ⟨k0, v0⟩ := p
      simp only [putChain]
      by_cases hk : k0 = k
      · subst hk
        rw [if_pos rfl, chainFind_cons_ne _ _ _ _ (fun hh => h hh.symm),
            chainFind_cons_ne _ _ _ _ (fun hh => h hh.symm)]
      · rw [if_neg hk]
        by_cases he : k0 = k'
        · subst he; rw [chainFind_cons_self, chainFind_cons_self]
        · rw [chainFind_cons_ne _ _ _ _ he, chainFind_cons_ne _ _ _ _ he]
          exact ih

theorem getVal_put_self (m : hashmap) (k v : Int) :
    (m.put k v).getVal k = v := by
  simp [hashmap.put, hashmap.getVal, Function.update_same, chainFind_putChain_self]

theorem getVal_put_other (m : hashmap) (k v k' : Int) (h : k' ≠ k) :
    (m.put k v).getVal k' = m.getVal k' := by
  simp only [hashmap.put, hashmap.getVal]
  by_cases hb : bucketOf k' = bucketOf k
  · rw [hb, Function.update_same, chainFind_putChain_other _ _ _ _ h]
  · rw [Function.update_noteq hb]

theorem containsKey_iff_chainFind (m : hashmap) (k : Int) :
    m.containsKey k = (chainFind k (m.buckets (bucketOf k))).isSome := by
  simp only [hashmap.containsKey, chainFind]
  induction m.buckets (bucketOf k) with
  | nil => simp
  | cons p rest ih =>
      simp only [List.any_cons, List.find?_cons]
      by_cases h : p.1 = k
      · simp [h]
      · simp only [decide_eq_true_eq] at *
        simp [h, ih]

theorem get_of_containsKey (m : hashmap) (k : Int) (h : m.containsKey k) :
    m.get k = .ok (m.getVal k) := by
  rw [containsKey_iff_chainFind] at h
  simp only [hashmap.get, hashmap.getVal]
  cases hb : m.buckets (bucketOf k) with
  | nil => rw [hb] at h; simp [chainFind] at h
  | cons c rest =>
      rw [hb] at h
      cases hf : chainFind k (c :: rest) with
      | none => rw [hf] at h; simp at h
      | some v => simp [hf]

theorem containsKey_put_self (m : hashmap) (k v : Int) :
    (m.put k v).containsKey k = true := by
  rw [containsKey_iff_chainFind]
  simp [hashmap.put, Function.update_same, chainFind_putChain_self]

theorem containsKey_put_other (m : hashmap) (k v k' : Int) (h : k' ≠ k) :
    (m.put k v).containsKey k' = m.containsKey k' := by
  rw [containsKey_iff_chainFind, containsKey_iff_chainFind]
  simp only [hashmap.put]
  by_cases hb : bucketOf k' = bucketOf k
  · rw [hb, Function.update_same, chainFind_putChain_other _ _ _ _ h]
  · rw [Function.update_noteq hb]

theorem get_put_of_containsKey (m : hashmap) (k v k' : Int)
    (h : k' ≠ k) (hc : m.containsKey k') :
    (m.put k v).get k' = m.get k' := by
  rw [get_of_containsKey _ _ hc,
      get_of_containsKey _ _ (by rw [containsKey_put_other _ _ _ _ h]; exact hc),
      getVal_put_other _ _ _ _ h]

theorem mem_keys_iff (m : hashmap) (hwf : m.WF) (k : Int) :
    k ∈ m.keys ↔ m.containsKey k := by
  rw [containsKey_iff_chainFind, chainFind_isSome_iff]
  simp only [hashmap.keys, List.mem_flatMap, List.mem_map]
  constructor
  · rintro ⟨i, -, ⟨p, hp, rfl⟩⟩
    have hbk : bucketOf p.1 = i := (hwf.1 i).2 p hp
    exact ⟨p.2, by rw [hbk]; exact hp⟩
  · rintro ⟨v, hv⟩
    exact ⟨bucketOf k, List.mem_finRange _, ⟨(k, v), hv, rfl⟩⟩

theorem WF_empty : emptyHashmap.WF := by
  refine ⟨fun i => ⟨List.nodup_nil, by simp [emptyHashmap]⟩, ?_⟩
  simp [emptyHashmap]

theorem mem_putChain (k v : Int) (c : Bucket) (p : Int × Int)
    (hp : p ∈ putChain k v c) : p ∈ c ∨ p.1 = k := by
  induction c with
  | nil => simp [putChain] at hp; simp [hp]
  | cons q rest ih =>
      obtain ⟨k0, v0⟩ := q
      simp only [putChain] at hp
      by_cases h : k0 = k
      · rw [if_pos h] at hp
        rcases List.mem_cons.mp hp with heq | hm
        · subst heq; right; exact h
        · left; exact List.mem_cons_of_mem _ hm
      · rw [if_neg h] at hp
        rcases List.mem_cons.mp hp with heq | hm
        · left; simp [heq]
        · rcases ih hm with h1 | h2
          · left; exact List.mem_cons_of_mem _ h1
          · right; exact h2

theorem WF_put (m : hashmap) (k v : Int) (hwf : m.WF) : (m.put k v).WF := by
  obtain ⟨hb, hn⟩ := hwf
  constructor
  · intro i
    by_cases hi : i = bucketOf k
    · subst hi
      simp only [hashmap.put, Function.update_same]
      constructor
      · rw [putChain_map_fst]
        split
        · exact (hb _).1
        · rename_i hnm
          rw [List.nodup_append]
          exact ⟨(hb _).1, List.nodup_singleton _, by simpa using hnm⟩
      · intro p hp
        rcases mem_putChain _ _ _ _ hp with h1 | h2
        · exact (hb _).2 p h1
        · rw [h2]
    · simp only [hashmap.put, Function.update_noteq hi]
      exact hb i
  · simp only [hashmap.put]
    rw [hn]
    have hrest : ∑ i in Finset.univ.erase (bucketOf k),
        ((Function.update m.buckets (bucketOf k)
          (putChain k v (m.buckets (bucketOf k)))) i).length
        = ∑ i in Finset.univ.erase (bucketOf k), (m.buckets i).length := by
      refine Finset.sum_congr rfl (fun i hi => ?_)
      rw [Function.update_noteq (Finset.ne_of_mem_erase hi)]
    have hsplit : ∀ f : Fin 10 → Nat,
        ∑ i : Fin 10, f i = f (bucketOf k) + ∑ i in Finset.univ.erase (bucketOf k), f i :=
      fun f => (Finset.add_sum_erase _ f (Finset.mem_univ _)).symm
    rw [hsplit (fun i => ((Function.update m.buckets (bucketOf k)
          (putChain k v (m.buckets (bucketOf k)))) i).length),
        hsplit (fun i => (m.buckets i).length)]
    simp only [Function.update_same, hrest]
    have hplen : ∀ c : Bucket, (putChain k v c).length =
        if (chainFind k c).isSome then c.length else c.length + 1 := by
      intro c
      induction c with
      | nil => simp [putChain, chainFind]
      | cons q rest ih =>
          obtain ⟨k0, v0⟩ := q
          simp only [putChain]
          by_cases h : k0 = k
          · subst h; simp [chainFind_cons_self]
          · rw [if_neg h, chainFind_cons_ne _ _ _ _ h]
            simp only [List.length_cons, ih]
            split <;> simp
    rw [hplen]
    split <;> omega

/-! ## Numeral lemmas: `out << i` then `stoi` is the identity -/

theorem natDigitsAux_congr (n : Nat) :
    ∀ f1, n < f1 → ∀ f2, n < f2 → natDigitsAux f1 n = natDigitsAux f2 n := by
  induction n using Nat.strong_induction_on with
  | _ n ih =>
      intro f1 h1 f2 h2
      cases f1 with
      | zero => omega
      | succ g1 =>
          cases f2 with
          | zero => omega
          | succ g2 =>
              simp only [natDigitsAux]
              by_cases hn : n < 10
              · rw [if_pos hn, if_pos hn]
              · rw [if_neg hn, if_neg hn]
                have hlt : n / 10 < n := Nat.div_lt_self (by omega) (by norm_num)
                rw [ih (n / 10) hlt g1 (by omega) g2 (by omega)]

theorem natDigits_unfold (n : Nat) :
    natDigits n = if n < 10 then [48 + n] else natDigits (n / 10) ++ [48 + n % 10] := by
  rw [natDigits, natDigitsAux]
  by_cases hn : n < 10
  · rw [if_pos hn, if_pos hn]
  · rw [if_neg hn, if_neg hn, natDigits]
    have hlt : n / 10 < n := Nat.div_lt_self (by omega) (by norm_num)
    rw [natDigitsAux_congr (n / 10) n hlt (n / 10 + 1) (by omega)]

theorem natDigits_ne_nil (n : Nat) : natDigits n ≠ [] := by
  rw [natDigits_unfold]
  split <;> simp

theorem natDigits_mem_range (n : Nat) : ∀ c ∈ natDigits n, 48 ≤ c ∧ c ≤ 57 := by
  induction n using Nat.strong_induction_on with
  | _ n ih =>
      rw [natDigits_unfold]
      split
      · rename_i h
        intro c hc
        simp at hc
        omega
      · rename_i h
        intro c hc
        rcases List.mem_append.mp hc with h1 | h2
        · exact ih (n / 10) (Nat.div_lt_self (by omega) (by norm_num)) c h1
        · simp at h2
          have := Nat.mod_lt n (show 0 < 10 by norm_num)
          omega

theorem parseDigits_all_digits (l : List Int) (h : ∀ c ∈ l, 48 ≤ c ∧ c ≤ 57)
    (acc : Nat) (r : List Int) (hr : ∀ c, r.head? = some c → ¬(48 ≤ c ∧ c ≤ 57)) :
    parseDigits acc (l ++ r) =
      (l.foldl (fun a c => a * 10 + (c - 48).toNat) acc, r) := by
  induction l generalizing acc with
  | nil =>
      simp only [List.nil_append, List.foldl_nil]
      cases r with
      | nil => rfl
      | cons c rr =>
          have := hr c rfl
          simp only [parseDigits]
          rw [if_neg this]
  | cons c l ih =>
      have hc := h c (List.mem_cons_self _ _)
      simp only [List.cons_append, parseDigits, if_pos hc, List.foldl_cons]
      exact ih (fun x hx => h x (List.mem_cons_of_mem _ hx)) _

theorem natDigits_foldl_value (n : Nat) (acc : Nat) :
    ((natDigits n).map Int.ofNat).foldl (fun a c => a * 10 + (c - 48).toNat) acc
      = acc * 10 ^ (natDigits n).length + n := by
  induction n using Nat.strong_induction_on generalizing acc with
  | _ n ih =>
      rw [natDigits_unfold]
      split
      · rename_i h
        simp only [List.map_cons, List.map_nil, List.foldl_cons, List.foldl_nil,
          List.length_cons, List.length_nil]
        have : ((48 + (n : Int)) - 48).toNat = n := by omega
        simp [this]
      · rename_i h
        rw [List.map_append, List.foldl_append,
            ih (n / 10) (Nat.div_lt_self (by omega) (by norm_num)) acc]
        simp only [List.map_cons, List.map_nil, List.foldl_cons, List.foldl_nil,
          List.length_append, List.length_cons, List.length_nil]
        have h1 : (Int.ofNat (48 + n % 10) - 48).toNat = n % 10 := by
          simp only [Int.ofNat_eq_coe]
          omega
        rw [h1, pow_add]
        ring_nf
        have h2 : n / 10 * 10 + n % 10 = n := by omega
        omega

theorem stoi_natDigits (n : Nat) :
    stoi ((natDigits n).map Int.ofNat) = some (Int.ofNat n) := by
  cases hd : natDigits n with
  | nil => exact absurd hd (natDigits_ne_nil n)
  | cons c r =>
      have hmem := natDigits_mem_range n
      rw [hd] at hmem
      have hc := hmem c (List.mem_cons_self _ _)
      have hci : (48 : Int) ≤ Int.ofNat c ∧ (Int.ofNat c : Int) ≤ 57 := by
        simp only [Int.ofNat_eq_coe]
        omega
      simp only [stoi, List.map_cons]
      rw [List.dropWhile_cons_of_neg (by simp only [Int.ofNat_eq_coe]; simp; omega)]
      simp only [stoiCore]
      rw [if_neg (by simp only [Int.ofNat_eq_coe]; omega)]
      rw [if_pos hci]
      have hall : ∀ x ∈ r.map Int.ofNat, 48 ≤ x ∧ x ≤ 57 := by
        intro x hx
        obtain ⟨y, hy, rfl⟩ := List.mem_map.mp hx
        have := hmem y (List.mem_cons_of_mem _ hy)
        simp only [Int.ofNat_eq_coe]
        omega
      have hpd := parseDigits_all_digits (r.map Int.ofNat) hall
        (Int.ofNat c - 48).toNat [] (by intro x hx; simp at hx)
      rw [List.append_nil] at hpd
      rw [hpd]
      have hfold := natDigits_foldl_value n 0
      rw [hd] at hfold
      simp only [List.map_cons, List.foldl_cons, Nat.zero_mul, Nat.zero_add] at hfold
      rw [hfold]

theorem stoi_intChars (i : Int) : stoi ((intChars i).map Int.ofNat) = some i := by
  rw [intChars]
  split
  · rename_i hneg
    cases hd : natDigits (-i).toNat with
    | nil => exact absurd hd (natDigits_ne_nil _)
    | cons c r =>
        have hmem := natDigits_mem_range (-i).toNat
        rw [hd] at hmem
        have hc := hmem c (List.mem_cons_self _ _)
        simp only [stoi, List.map_cons]
        rw [List.dropWhile_cons_of_neg (by decide)]
        simp only [stoiCore]
        rw [if_pos (by decide : ((Int.ofNat 45 : Int) = 45 ∨ (Int.ofNat 45 : Int) = 43))]
        rw [if_pos (by constructor <;> simp only [Int.ofNat_eq_coe] <;> omega)]
        rw [if_pos (by decide : (Int.ofNat 45 : Int) = 45)]
        have hall : ∀ x ∈ r.map Int.ofNat, 48 ≤ x ∧ x ≤ 57 := by
          intro x hx
          obtain ⟨y, hy, rfl⟩ := List.mem_map.mp hx
          have := hmem y (List.mem_cons_of_mem _ hy)
          simp only [Int.ofNat_eq_coe]
          omega
        have hpd := parseDigits_all_digits (r.map Int.ofNat) hall
          (Int.ofNat c - 48).toNat [] (by intro x hx; simp at hx)
        rw [List.append_nil] at hpd
        rw [hpd]
        have hfold := natDigits_foldl_value (-i).toNat 0
        rw [hd] at hfold
        simp only [List.map_cons, List.foldl_cons, Nat.zero_mul, Nat.zero_add] at hfold
        rw [hfold]
        congr 1
        simp only [Int.ofNat_eq_coe]
        omega
  · rename_i hpos
    rw [stoi_natDigits]
    congr 1
    simp only [Int.ofNat_eq_coe]
    omega

/-! ## Parser lemmas -/

theorem intChars_mem_range (i : Int) :
    ∀ c ∈ intChars i, c = 45 ∨ (48 ≤ c ∧ c ≤ 57) := by
  rw [intChars]
  split
  · intro c hc
    rcases List.mem_cons.mp hc with h | h
    · left; exact h
    · right; exact natDigits_mem_range _ c h
  · intro c hc
    right
    exact natDigits_mem_range _ c hc

theorem intChars_ne_nil (i : Int) : intChars i ≠ [] := by
  rw [intChars]
  split
  · simp
  · exact natDigits_ne_nil _

theorem entryBytes_mem_range (p : Int × Int) :
    ∀ c ∈ entryBytes p, c = 45 ∨ c = 58 ∨ (48 ≤ c ∧ c ≤ 57) := by
  intro c hc
  rcases List.mem_append.mp hc with h | h
  · rcases intChars_mem_range _ c h with h1 | h1
    · left; exact h1
    · right; right; exact h1
  · rcases List.mem_cons.mp h with h1 | h1
    · right; left; exact h1
    · rcases intChars_mem_range _ c h1 with h2 | h2
      · left; exact h2
      · right; right; exact h2

theorem readUntilSep_stop (nc : Int) (rest : List Nat)
    (h : nc = 44 ∨ nc = 125) : readUntilSep nc rest = some ([], nc, rest) := by
  cases rest <;> (simp only [readUntilSep]; rw [if_pos h])

theorem readUntilSep_go (nc : Int) (c : Nat) (r : List Nat)
    (h : ¬(nc = 44 ∨ nc = 125)) :
    readUntilSep nc (c :: r)
      = (readUntilSep (c : Nat) r).map (fun t => (nc :: t.1, t.2.1, t.2.2)) := by
  simp only [readUntilSep]
  rw [if_neg h]

theorem readUntilSep_spec (e : List Nat) (sep : Nat) (r : List Nat)
    (he : ∀ c ∈ e, c ≠ 44 ∧ c ≠ 125) (hsep : sep = 44 ∨ sep = 125) :
    readUntilSep (streamGet (e ++ sep :: r)).1 (streamGet (e ++ sep :: r)).2
      = some (e.map Int.ofNat, (sep : Int), r) := by
  induction e with
  | nil =>
      simp only [List.nil_append, streamGet]
      rw [readUntilSep_stop _ _ (by rcases hsep with h | h <;> subst h <;> simp)]
      simp
  | cons c e ih =>
      have hch := he c (List.mem_cons_self _ _)
      simp only [List.cons_append, streamGet]
      have hne : e ++ sep :: r ≠ [] := by simp
      cases hes : e ++ sep :: r with
      | nil => exact absurd hes hne
      | cons x rest =>
          rw [readUntilSep_go _ _ _ (by omega)]
          have ih2 := ih (fun y hy => he y (List.mem_cons_of_mem _ hy))
          rw [hes] at ih2
          simp only [streamGet] at ih2
          rw [ih2]
          simp

theorem splitEntry_entry (k v : Int) :
    splitEntry ((entryBytes (k, v)).map Int.ofNat)
      = ((intChars k).map Int.ofNat, (intChars v).map Int.ofNat) := by
  have hk : ∀ c ∈ (intChars k).map Int.ofNat, ¬(c = 58) := by
    intro c hc
    obtain ⟨y, hy, rfl⟩ := List.mem_map.mp hc
    rcases intChars_mem_range _ y hy with h | h <;>
      (simp only [Int.ofNat_eq_coe]; omega)
  simp only [splitEntry, entryBytes, List.map_append, List.map_cons]
  rw [List.findIdx?_append]
  have hnone : List.findIdx? (fun c => decide (c = 58)) ((intChars k).map Int.ofNat)
      = none := by
    rw [List.findIdx?_eq_none_iff]
    intro x hx
    simpa using hk x hx
  rw [hnone]
  have hidx : List.findIdx? (fun c => decide (c = 58))
      ((Int.ofNat 58 : Int) :: (intChars v).map Int.ofNat) = some 0 := by
    rw [List.findIdx?_cons]
    simp
  rw [hidx]
  have e1 : (((intChars k).map Int.ofNat) ++ (Int.ofNat 58 : Int) ::
      ((intChars v).map Int.ofNat)).take ((intChars k).map Int.ofNat).length
      = (intChars k).map Int.ofNat := by
    exact List.take_left ((intChars k).map Int.ofNat)
      ((Int.ofNat 58 : Int) :: (intChars v).map Int.ofNat)
  have e2 : (((intChars k).map Int.ofNat) ++ (Int.ofNat 58 : Int) ::
      ((intChars v).map Int.ofNat)).drop (((intChars k).map Int.ofNat).length + 1)
      = (intChars v).map Int.ofNat := by
    have hsplit : ((intChars k).map Int.ofNat) ++ (Int.ofNat 58 : Int) ::
        ((intChars v).map Int.ofNat)
        = (((intChars k).map Int.ofNat) ++ [(Int.ofNat 58 : Int)])
            ++ ((intChars v).map Int.ofNat) := by simp
    have hl : (((intChars k).map Int.ofNat) ++ [(Int.ofNat 58 : Int)]).length
        = ((intChars k).map Int.ofNat).length + 1 := by simp
    rw [hsplit, ← hl, List.drop_left]
  have e3 : ((intChars v).map Int.ofNat).take
      ((((intChars k).map Int.ofNat) ++ (Int.ofNat 58 : Int) ::
        ((intChars v).map Int.ofNat)).length - 1) = (intChars v).map Int.ofNat := by
    apply List.take_of_length_le
    simp
  simp only [Option.none_or, Option.map_some', Nat.zero_add, e1, e2]
  rw [e3]

theorem putEntry_entry (a : hashmap) (k v : Int) :
    putEntry a ((entryBytes (k, v)).map Int.ofNat) = some (a.put k v) := by
  have hne : (entryBytes (k, v)).map Int.ofNat ≠ [] := by
    simp only [ne_eq, List.map_eq_nil_iff, entryBytes]
    simp [intChars_ne_nil]
  simp only [putEntry, if_neg hne, splitEntry_entry, stoi_intChars]

theorem joinEntries_length_ge (ps : List (Int × Int)) :
    ps.length ≤ (joinEntries ps).length := by
  induction ps with
  | nil => simp [joinEntries]
  | cons p ps ih =>
      cases ps with
      | nil =>
          simp only [joinEntries, List.length_cons, List.length_nil]
          have := intChars_ne_nil p.1
          have hlen : 1 ≤ (entryBytes p).length := by
            simp only [entryBytes, List.length_append, List.length_cons]
            omega
          omega
      | cons q rest =>
          simp only [joinEntries] at ih ⊢
          simp only [List.length_cons, List.length_append, List.length_cons] at ih ⊢
          omega

theorem entryBytes_sep_free (p : Int × Int) :
    ∀ c ∈ entryBytes p, c ≠ 44 ∧ c ≠ 125 := by
  intro c hc
  rcases entryBytes_mem_range p c hc with h | h | h <;> omega

theorem parseHLoop_spec (ps : List (Int × Int)) :
    ∀ (a : hashmap) (r : List Nat) (fuel : Nat), ps.length < fuel →
    parseHLoop fuel a (streamGet (joinEntries ps ++ 125 :: r)).1
        (streamGet (joinEntries ps ++ 125 :: r)).2
      = some (ps.foldl (fun m p => m.put p.1 p.2) a, r) := by
  induction ps with
  | nil =>
      intro a r fuel hfuel
      cases fuel with
      | zero => omega
      | succ f =>
          simp only [joinEntries, List.nil_append, streamGet, parseHLoop]
          rw [readUntilSep_stop _ r (by norm_num)]
          simp only [Option.bind]
          norm_num [putEntry, List.foldl_nil]
  | cons p ps ih =>
      intro a r fuel hfuel
      obtain ⟨k0, v0⟩ := p
      cases fuel with
      | zero => omega
      | succ f =>
          cases ps with
          | nil =>
              simp only [joinEntries, parseHLoop]
              rw [readUntilSep_spec (entryBytes (k0, v0)) 125 r
                (entryBytes_sep_free _) (Or.inr rfl)]
              simp only [Option.bind]
              rw [if_neg (by norm_num)]
              rw [putEntry_entry]
              norm_num
          | cons q rest =>
              have hj : joinEntries ((k0, v0) :: q :: rest) ++ 125 :: r
                  = entryBytes (k0, v0)
                      ++ 44 :: (32 :: (joinEntries (q :: rest) ++ 125 :: r)) := by
                simp [joinEntries]
              rw [hj]
              simp only [parseHLoop]
              rw [readUntilSep_spec (entryBytes (k0, v0)) 44
                (32 :: (joinEntries (q :: rest) ++ 125 :: r))
                (entryBytes_sep_free _) (Or.inl rfl)]
              simp only [Option.bind]
              rw [if_pos (by norm_num)]
              rw [putEntry_entry]
              have hih := ih (a.put k0 v0) r f (by
                simp only [List.length_cons] at hfuel ⊢
                omega)
              simp only [Option.bind, streamGet]
              cases hjq : joinEntries (q :: rest) ++ 125 :: r with
              | nil =>
                  exfalso
                  have : (125 : Nat) ∈ joinEntries (q :: rest) ++ 125 :: r := by simp
                  rw [hjq] at this
                  simp at this
              | cons x xs =>
                  rw [hjq] at hih
                  simp only [streamGet] at hih
                  simp only [hih, List.foldl_cons]

theorem deserializeInto_append (a m : hashmap) (r : List Nat) :
    a.deserializeInto (m.serializeBytes ++ r)
      = some (m.pairs.foldl (fun x p => x.put p.1 p.2) a, r) := by
  have hshape : m.serializeBytes ++ r = 123 :: (joinEntries m.pairs ++ 125 :: r) := by
    simp [hashmap.serializeBytes]
  rw [hashmap.deserializeInto, hshape]
  simp only [streamGet]
  apply parseHLoop_spec
  have h1 := joinEntries_length_ge m.pairs
  simp only [List.length_cons, List.length_append]
  omega

theorem mem_map_fst_iff (k : Int) (c : Bucket) :
    k ∈ c.map Prod.fst ↔ ∃ v, (k, v) ∈ c := by
  constructor
  · intro h
    obtain ⟨p, hp, he⟩ := List.mem_map.mp h
    obtain ⟨k0, v0⟩ := p
    subst he
    exact ⟨v0, hp⟩
  · rintro ⟨v, hv⟩
    exact List.mem_map_of_mem Prod.fst hv

theorem chainFind_eq_none_iff (k : Int) (c : Bucket) :
    chainFind k c = none ↔ k ∉ c.map Prod.fst := by
  rw [← Option.not_isSome_iff_eq_none, chainFind_isSome_iff, mem_map_fst_iff]

theorem putChain_append_of_not_mem (k v : Int) (c : Bucket)
    (h : k ∉ c.map Prod.fst) : putChain k v c = c ++ [(k, v)] := by
  induction c with
  | nil => simp [putChain]
  | cons p rest ih =>
      obtain ⟨k0, v0⟩ := p
      simp only [List.map_cons, List.mem_cons, not_or] at h
      simp only [putChain]
      rw [if_neg (fun hh : k0 = k => h.1 hh.symm), ih h.2]
      simp

theorem foldl_put_chain (c : Bucket) (i : Fin 10) :
    ∀ (a : hashmap), (∀ p ∈ c, bucketOf p.1 = i) → ((c.map Prod.fst).Nodup) →
      (∀ p ∈ c, p.1 ∉ (a.buckets i).map Prod.fst) →
      (c.foldl (fun x p => x.put p.1 p.2) a).buckets
          = Function.update a.buckets i (a.buckets i ++ c)
        ∧ (c.foldl (fun x p => x.put p.1 p.2) a).nElems = a.nElems + c.length := by
  induction c with
  | nil =>
      intro a _ _ _
      constructor
      · simp only [List.foldl_nil, List.append_nil, Function.update_eq_self]
      · simp
  | cons p c ih =>
      intro a hbk hnd hnot
      obtain ⟨k, v⟩ := p
      have hbk0 : bucketOf k = i := hbk (k, v) (List.mem_cons_self _ _)
      have hknotmem : k ∉ (a.buckets i).map Prod.fst :=
        hnot (k, v) (List.mem_cons_self _ _)
      simp only [List.map_cons, List.nodup_cons] at hnd
      simp only [List.foldl_cons]
      have hput : (a.put k v).buckets
          = Function.update a.buckets i (a.buckets i ++ [(k, v)]) := by
        simp only [hashmap.put, hbk0]
        rw [putChain_append_of_not_mem _ _ _ hknotmem]
      have hputn : (a.put k v).nElems = a.nElems + 1 := by
        simp only [hashmap.put, hbk0]
        rw [(chainFind_eq_none_iff k (a.buckets i)).mpr hknotmem]
        simp
      have hrec := ih (a.put k v) (fun q hq => hbk q (List.mem_cons_of_mem _ hq)) hnd.2
        (by
          intro q hq
          rw [hput, Function.update_same, List.map_append]
          simp only [List.mem_append, not_or]
          refine ⟨fun hh => hnot q (List.mem_cons_of_mem _ hq) hh, ?_⟩
          simp only [List.map_cons, List.map_nil, List.mem_singleton]
          intro hh
          exact hnd.1 (by rw [← hh]; exact List.mem_map_of_mem Prod.fst hq))
      obtain ⟨hb, hn⟩ := hrec
      constructor
      · rw [hb, hput, Function.update_same]
        funext j
        by_cases hj : j = i
        · subst hj; simp
        · rw [Function.update_noteq hj, Function.update_noteq hj,
              Function.update_noteq hj]
      · rw [hn, hputn]
        simp only [List.length_cons]
        omega

theorem foldl_put_buckets (m : hashmap) (L : List (Fin 10)) :
    ∀ (a : hashmap), L.Nodup →
      (∀ i : Fin 10, ((m.buckets i).map Prod.fst).Nodup
        ∧ ∀ p ∈ m.buckets i, bucketOf p.1 = i) →
      (∀ i ∈ L, a.buckets i = []) →
      ((L.flatMap m.buckets).foldl (fun x p => x.put p.1 p.2) a).buckets
          = (fun j => if j ∈ L then m.buckets j else a.buckets j)
        ∧ ((L.flatMap m.buckets).foldl (fun x p => x.put p.1 p.2) a).nElems
          = a.nElems + (L.map (fun i => (m.buckets i).length)).sum := by
  induction L with
  | nil =>
      intro a _ _ _
      simp
  | cons i L ih =>
      intro a hnd hm ha
      simp only [List.nodup_cons] at hnd
      have hai : a.buckets i = [] := ha i (List.mem_cons_self _ _)
      simp only [List.flatMap_cons, List.foldl_append]
      have hstep := foldl_put_chain (m.buckets i) i a (hm i).2 (hm i).1
        (by intro p hp; rw [hai]; simp)
      obtain ⟨hb1, hn1⟩ := hstep
      set a1 := (m.buckets i).foldl (fun x p => x.put p.1 p.2) a with ha1
      have hrec := ih a1 hnd.2 hm (by
        intro j hj
        rw [hb1, Function.update_noteq (by intro hh; exact hnd.1 (by rw [← hh]; exact hj))]
        exact ha j (List.mem_cons_of_mem _ hj))
      obtain ⟨hb2, hn2⟩ := hrec
      constructor
      · rw [hb2]
        funext j
        by_cases hjL : j ∈ L
        · rw [if_pos hjL, if_pos (List.mem_cons_of_mem _ hjL)]
        · rw [if_neg hjL]
          by_cases hji : j = i
          · subst hji
            rw [if_pos (List.mem_cons_self _ _), hb1, Function.update_same, hai,
                List.nil_append]
          · rw [if_neg (by simp [hji, hjL]), hb1, Function.update_noteq hji]
      · rw [hn2, hn1]
        simp only [List.map_cons, List.sum_cons]
        omega

theorem pairs_flatMap (m : hashmap) (hwf : m.WF) :
    m.pairs = (List.finRange 10).flatMap m.buckets := by
  simp only [hashmap.pairs, hashmap.keys, List.map_flatMap]
  refine List.flatMap_congr (fun i hi => ?_)
  rw [List.map_map]
  refine List.map_congr_left (fun p hp => ?_) |>.trans (List.map_id _)
  have hbk : bucketOf p.1 = i := (hwf.1 i).2 p hp
  have hfind : chainFind p.1 (m.buckets (bucketOf p.1)) = some p.2 := by
    rw [hbk]
    exact (chainFind_eq_some_iff p.1 p.2 (m.buckets i) (hwf.1 i).1).mpr
      (by obtain ⟨a, b⟩ := p; exact hp)
  simp only [Function.comp_apply, hashmap.getVal, hfind, Option.getD_some, id_eq]

theorem rebuild_eq (m : hashmap) (hwf : m.WF) :
    m.pairs.foldl (fun x p => x.put p.1 p.2) emptyHashmap = m := by
  rw [pairs_flatMap m hwf]
  have h := foldl_put_buckets m (List.finRange 10) emptyHashmap
    (List.nodup_finRange 10) hwf.1 (fun _ _ => rfl)
  obtain ⟨hb, hn⟩ := h
  obtain ⟨mb, mn⟩ := m
  refine congrArg₂ hashmap.mk ?_ ?_
  · rw [hb]
    funext j
    rw [if_pos (List.mem_finRange j)]
  · rw [hn]
    have := hwf.2
    simp only at this
    rw [this, Fin.sum_univ_def]
    simp [emptyHashmap]

/-! ## Huffman tree lemmas -/

theorem pqInsert_flatMap_perm (n : HuffmanNode) (l : List HuffmanNode) :
    ((pqInsert n l).flatMap leaves).Perm (leaves n ++ l.flatMap leaves) := by
  induction l with
  | nil => simp [pqInsert]
  | cons m rest ih =>
      simp only [pqInsert]
      split
      · simp
      · simp only [List.flatMap_cons]
        refine (List.Perm.append_left (leaves m) ih).trans ?_
        simp only [← List.append_assoc]
        exact List.Perm.append_right _ List.perm_append_comm

theorem pqInsert_ok (n : HuffmanNode) (l : List HuffmanNode)
    (hn : internalsOK n) (hl : ∀ x ∈ l, internalsOK x) :
    ∀ x ∈ pqInsert n l, internalsOK x := by
  induction l with
  | nil =>
      intro x hx
      simp only [pqInsert, List.mem_singleton] at hx
      subst hx
      exact hn
  | cons hd rest ih =>
      intro x hx
      simp only [pqInsert] at hx
      split at hx
      · rcases List.mem_cons.mp hx with h | h
        · subst h; exact hn
        · exact hl x h
      · rcases List.mem_cons.mp hx with h | h
        · rw [h]; exact hl _ (List.mem_cons_self _ _)
        · exact ih (fun y hy => hl y (List.mem_cons_of_mem _ hy)) x h

theorem pqInsert_length (n : HuffmanNode) (l : List HuffmanNode) :
    (pqInsert n l).length = l.length + 1 := by
  induction l with
  | nil => rfl
  | cons x xs ih =>
      simp only [pqInsert]
      split
      · simp
      · simp [ih]

theorem build_htreeAux_singleton (fuel : Nat) (x : HuffmanNode) :
    build_htreeAux fuel [x] = [x] := by
  cases fuel <;> rfl

theorem build_htreeAux_spec :
    ∀ (fuel : Nat) (l : List HuffmanNode), l.length ≤ fuel + 1 → l ≠ [] →
    ∃ t, build_htreeAux fuel l = [t]
      ∧ (leaves t).Perm (l.flatMap leaves)
      ∧ ((∀ x ∈ l, internalsOK x) → internalsOK t)
      ∧ (2 ≤ l.length → t.character = 257) := by
  intro fuel
  induction fuel with
  | zero =>
      intro l hlen hne
      match l, hlen, hne with
      | [x], _, _ =>
          exact ⟨x, rfl, by simp, fun h => h x (List.mem_cons_self _ _), by simp⟩
  | succ f ih =>
      intro l hlen hne
      match l, hlen, hne with
      | [x], _, _ =>
          exact ⟨x, build_htreeAux_singleton _ x, by simp,
            fun h => h x (List.mem_cons_self _ _), by simp⟩
      | a :: b :: rest, hlen, _ =>
          have hlen2 : (pqInsert (.internal (a.count + b.count) a b) rest).length
              ≤ f + 1 := by
            rw [pqInsert_length]
            simp only [List.length_cons] at hlen
            omega
          have hne2 : pqInsert (.internal (a.count + b.count) a b) rest ≠ [] := by
            intro h
            have := pqInsert_length (.internal (a.count + b.count) a b) rest
            rw [h] at this
            simp at this
          obtain ⟨t, ht, hperm, hok, hchar⟩ := ih _ hlen2 hne2
          refine ⟨t, ?_, ?_, ?_, fun _ => ?_⟩
          · simp only [build_htreeAux]
            exact ht
          · refine hperm.trans ?_
            refine (pqInsert_flatMap_perm _ _).trans ?_
            simp only [leaves, List.flatMap_cons, List.append_assoc]
            exact List.Perm.refl _
          · intro hall
            refine hok (pqInsert_ok _ _ ?_ ?_)
            · simp only [internalsOK, Bool.and_eq_true, decide_eq_true_eq]
              exact ⟨⟨trivial, hall a (List.mem_cons_self _ _)⟩,
                hall b (List.mem_cons_of_mem _ (List.mem_cons_self _ _))⟩
            · intro y hy
              exact hall y (List.mem_cons_of_mem _ (List.mem_cons_of_mem _ hy))
          · cases hrest : rest with
            | nil =>
                rw [hrest] at ht
                simp only [pqInsert, build_htreeAux_singleton] at ht
                injection ht with h1
                rw [← h1]
                rfl
            | cons x xs =>
                apply hchar
                rw [hrest, pqInsert_length]
                simp

theorem build_htree_spec (l : List HuffmanNode) (hne : l ≠ []) :
    ∃ t, build_htree l = [t]
      ∧ (leaves t).Perm (l.flatMap leaves)
      ∧ ((∀ x ∈ l, internalsOK x) → internalsOK t)
      ∧ (2 ≤ l.length → t.character = 257) := by
  rw [build_htree]
  exact build_htreeAux_spec l.length l (by omega) hne

theorem foldl_pqInsert_perm (ks : List Int) (f : Int → HuffmanNode) :
    ∀ pq, ((ks.foldl (fun pq e => pqInsert (f e) pq) pq).flatMap leaves).Perm
      (ks.flatMap (fun e => leaves (f e)) ++ pq.flatMap leaves) := by
  induction ks with
  | nil => intro pq; simp
  | cons k ks ih =>
      intro pq
      simp only [List.foldl_cons, List.flatMap_cons]
      refine (ih (pqInsert (f k) pq)).trans ?_
      refine (List.Perm.append_left _ (pqInsert_flatMap_perm _ _)).trans ?_
      simp only [← List.append_assoc]
      exact List.Perm.append_right _ List.perm_append_comm

theorem foldl_pqInsert_length (ks : List Int) (f : Int → HuffmanNode) :
    ∀ pq, (ks.foldl (fun pq e => pqInsert (f e) pq) pq).length
      = pq.length + ks.length := by
  induction ks with
  | nil => intro pq; simp
  | cons k ks ih =>
      intro pq
      simp only [List.foldl_cons, ih, pqInsert_length, List.length_cons]
      omega

theorem foldl_pqInsert_ok (ks : List Int) (f : Int → HuffmanNode)
    (hf : ∀ e, internalsOK (f e)) :
    ∀ pq, (∀ x ∈ pq, internalsOK x) →
      ∀ x ∈ ks.foldl (fun pq e => pqInsert (f e) pq) pq, internalsOK x := by
  induction ks with
  | nil => intro pq h; exact h
  | cons k ks ih =>
      intro pq h
      simp only [List.foldl_cons]
      exact ih _ (pqInsert_ok _ _ (hf k) h)

theorem buildEncodingTree_spec (m : hashmap) (hne : m.keys ≠ []) :
    ∃ t, buildEncodingTree m = some t
      ∧ (leaves t).Perm m.pairs
      ∧ (symbols t).Perm m.keys
      ∧ internalsOK t
      ∧ (2 ≤ m.keys.length → t.character = 257) := by
  have hpqlen : (m.keys.foldl (fun pq e => pqInsert (.leaf e (m.getVal e)) pq) []).length
      = m.keys.length := by
    rw [foldl_pqInsert_length m.keys (fun e => .leaf e (m.getVal e)) []]
    simp
  have hpqne : m.keys.foldl (fun pq e => pqInsert (.leaf e (m.getVal e)) pq) [] ≠ [] := by
    intro h
    rw [h] at hpqlen
    exact hne (List.length_eq_zero.mp hpqlen.symm)
  obtain ⟨t, ht, hperm, hok, hchar⟩ := build_htree_spec _ hpqne
  have hleavesperm : (leaves t).Perm m.pairs := by
    refine hperm.trans ?_
    refine (foldl_pqInsert_perm m.keys (fun e => .leaf e (m.getVal e)) []).trans ?_
    simp only [List.flatMap_nil, List.append_nil, leaves]
    have hfm : m.keys.flatMap (fun e => [(e, m.getVal e)])
        = m.keys.map (fun e => (e, m.getVal e)) := by
      induction m.keys with
      | nil => rfl
      | cons k ks ih => simp only [List.flatMap_cons, List.map_cons, ih]; rfl
    rw [hfm]
    exact List.Perm.refl _
  refine ⟨t, ?_, hleavesperm, ?_, ?_, ?_⟩
  · rw [buildEncodingTree, ht]
    rfl
  · have := hleavesperm.map Prod.fst
    simpa [symbols, hashmap.pairs, Function.comp_def] using this
  · exact hok (foldl_pqInsert_ok _ _ (fun e => by simp [internalsOK]) [] (by simp))
  · intro h2
    exact hchar (by rw [hpqlen]; exact h2)

/-! ## Codewords: root-to-leaf paths -/

theorem bitsOfString_append (a b : String) :
    bitsOfString (a ++ b) = bitsOfString a ++ bitsOfString b := by
  simp [bitsOfString, String.data_append]

theorem codewords_shift (t : HuffmanNode) :
    ∀ pre, codewords t pre = (codewords t []).map (fun e => (e.1, pre ++ e.2)) := by
  induction t with
  | leaf c n =>
      intro pre
      simp only [codewords]
      split <;> simp
  | internal n z o ihz iho =>
      intro pre
      simp only [codewords, List.map_append, List.nil_append]
      rw [ihz (pre ++ [false]), iho (pre ++ [true]), ihz [false], iho [true],
          List.map_map, List.map_map]
      congr 1 <;> (apply List.map_congr_left; intro e he; simp)

theorem codeEntries_bits (t : HuffmanNode) :
    ∀ pre, (codeEntries t pre).map (fun e => (e.1, bitsOfString e.2))
      = codewords t (bitsOfString pre) := by
  induction t with
  | leaf c n =>
      intro pre
      simp only [codeEntries, codewords]
      split <;> simp
  | internal n z o ihz iho =>
      intro pre
      simp only [codeEntries, codewords, List.map_append, ihz, iho,
        bitsOfString_append]
      congr 1

theorem codewords_map_fst (t : HuffmanNode) (h257 : (257 : Int) ∉ symbols t) :
    ∀ pre, (codewords t pre).map Prod.fst = symbols t := by
  induction t with
  | leaf c n =>
      intro pre
      simp only [symbols, leaves, List.map_cons, List.map_nil] at h257 ⊢
      simp only [List.mem_singleton] at h257
      simp only [codewords]
      rw [if_neg (fun hh => h257 hh.symm)]
      simp
  | internal n z o ihz iho =>
      intro pre
      simp only [symbols, leaves, List.map_append] at h257 ⊢
      simp only [List.mem_append] at h257
      push_neg at h257
      simp only [codewords, List.map_append]
      rw [ihz h257.1, iho h257.2]
      rfl

theorem codeEntries_map_fst (t : HuffmanNode) (h257 : (257 : Int) ∉ symbols t)
    (pre : String) : (codeEntries t pre).map Prod.fst = symbols t := by
  have h := codewords_map_fst t h257 (bitsOfString pre)
  rw [← codeEntries_bits t pre] at h
  rw [List.map_map] at h
  exact h

theorem codewords_complete (t : HuffmanNode) :
    ∀ s ∈ symbols t, s ≠ 257 → ∃ p, (s, p) ∈ codewords t [] := by
  induction t with
  | leaf c n =>
      intro s hs hne
      simp only [symbols, leaves, List.map_cons, List.map_nil,
        List.mem_singleton] at hs
      subst hs
      exact ⟨[], by simp [codewords, if_neg hne]⟩
  | internal n z o ihz iho =>
      intro s hs hne
      simp only [symbols, leaves, List.map_append, List.mem_append] at hs
      rcases hs with h | h
      · obtain ⟨p, hp⟩ := ihz s h hne
        refine ⟨false :: p, ?_⟩
        simp only [codewords, List.mem_append, List.nil_append]
        left
        rw [codewords_shift z [false]]
        exact List.mem_map.mpr ⟨(s, p), hp, rfl⟩
      · obtain ⟨p, hp⟩ := iho s h hne
        refine ⟨true :: p, ?_⟩
        simp only [codewords, List.mem_append, List.nil_append]
        right
        rw [codewords_shift o [true]]
        exact List.mem_map.mpr ⟨(s, p), hp, rfl⟩

theorem codeEntries_fst_sub (t : HuffmanNode) :
    ∀ (pre : String) (x : Int), x ∈ (codeEntries t pre).map Prod.fst → x ∈ symbols t := by
  induction t with
  | leaf c n =>
      intro pre x hx
      simp only [codeEntries] at hx
      split at hx
      · simp at hx
      · simp only [List.map_cons, List.map_nil, List.mem_singleton] at hx
        simp [symbols, leaves, hx]
  | internal n z o ihz iho =>
      intro pre x hx
      simp only [codeEntries, List.map_append, List.mem_append] at hx
      simp only [symbols, leaves, List.map_append, List.mem_append]
      rcases hx with h | h
      · exact Or.inl (ihz _ x h)
      · exact Or.inr (iho _ x h)

theorem buildEncodingMapAux_spec (t : HuffmanNode) :
    ∀ (em : List (Int × String)) (str : String),
      (symbols t).Nodup → (∀ s ∈ symbols t, s ∉ em.map Prod.fst) →
      buildEncodingMapAux t em str = em ++ codeEntries t str := by
  induction t with
  | leaf c n =>
      intro em str hnd hdisj
      simp only [symbols, leaves, List.map_cons, List.map_nil] at hdisj
      simp only [buildEncodingMapAux, codeEntries]
      by_cases hc : c = 257
      · rw [if_neg (by simpa using hc), if_pos hc]
        simp
      · rw [if_pos hc, if_neg hc]
        have hnotin : ¬ em.any (fun p => p.1 = c) := by
          intro h
          obtain ⟨p, hp, he⟩ := List.any_eq_true.mp h
          simp only [decide_eq_true_eq] at he
          exact hdisj c (List.mem_singleton_self _) (by
            rw [← he]
            exact List.mem_map_of_mem Prod.fst hp)
        simp [emInsert, hnotin]
  | internal n z o ihz iho =>
      intro em str hnd hdisj
      simp only [symbols, leaves, List.map_append] at hnd hdisj
      have hparts := List.nodup_append.mp hnd
      have hndz : ((leaves z).map Prod.fst).Nodup := hparts.1
      have hndo : ((leaves o).map Prod.fst).Nodup := hparts.2.1
      have hdisjzo := hparts.2.2
      simp only [buildEncodingMapAux]
      rw [ihz em (str ++ "0") hndz
        (fun s hs => hdisj s (List.mem_append.mpr (Or.inl hs)))]
      rw [iho _ (str ++ "1") hndo (by
        intro s hs
        rw [List.map_append]
        simp only [List.mem_append, not_or]
        refine ⟨hdisj s (List.mem_append.mpr (Or.inr hs)), ?_⟩
        intro hmem
        exact hdisjzo (codeEntries_fst_sub z _ s hmem) hs)]
      rw [codeEntries, List.append_assoc]

theorem emFind_eq_some_of_mem (l : List (Int × String))
    (hnd : (l.map Prod.fst).Nodup) (s : Int) (w : String) (hm : (s, w) ∈ l) :
    emFind l s = some w := by
  induction l with
  | nil => simp at hm
  | cons p rest ih =>
      obtain ⟨k0, w0⟩ := p
      simp only [List.map_cons, List.nodup_cons] at hnd
      rcases List.mem_cons.mp hm with heq | hmem
      · rw [Prod.mk.injEq] at heq
        obtain ⟨h1, h2⟩ := heq
        subst h1; subst h2
        simp [emFind, List.find?_cons_of_pos]
      · have hne : k0 ≠ s := by
          intro hh
          subst hh
          exact hnd.1 (by
            have := List.mem_map_of_mem Prod.fst hmem
            simpa using this)
        simp only [emFind]
        rw [List.find?_cons_of_neg _ (by simp [hne])]
        exact ih hnd.2 hmem

theorem buildEncodingMap_eq (t : HuffmanNode) (hnd : (symbols t).Nodup) :
    buildEncodingMap t = codeEntries t "" := by
  rw [buildEncodingMap, buildEncodingMapAux_spec t [] "" hnd (by simp)]
  rfl

/-- Membership in `codewords` determines an `emFind` result in the built map. -/
theorem emFind_of_codeword (t : HuffmanNode) (hnd : (symbols t).Nodup)
    (h257 : (257 : Int) ∉ symbols t) (s : Int) (w : String)
    (hm : (s, w) ∈ codeEntries t "") :
    emFind (buildEncodingMap t) s = some w := by
  rw [buildEncodingMap_eq t hnd]
  exact emFind_eq_some_of_mem _ (by rw [codeEntries_map_fst t h257]; exact hnd) _ _ hm

theorem codeEntries_complete (t : HuffmanNode) (h257 : (257 : Int) ∉ symbols t) :
    ∀ s ∈ symbols t, ∃ w, (s, w) ∈ codeEntries t "" := by
  intro s hs
  have : s ∈ (codeEntries t "").map Prod.fst := by
    rw [codeEntries_map_fst t h257]
    exact hs
  obtain ⟨p, hp, he⟩ := List.mem_map.mp this
  obtain ⟨s0, w0⟩ := p
  subst he
  exact ⟨w0, hp⟩

/-! ## Prefix-freeness of the codeword set -/

theorem append_ne_ancestor (pre : List Bool) (b1 b2 : Bool) (x y : List Bool)
    (hb : b1 ≠ b2) : ¬ (pre ++ b1 :: x) <+: (pre ++ b2 :: y) := by
  rintro ⟨tail, ht⟩
  rw [List.append_assoc] at ht
  have hc : b1 :: (x ++ tail) = b2 :: y := List.append_cancel_left ht
  exact hb (List.head_eq_of_cons_eq hc)

theorem codewords_mem_shape (t : HuffmanNode) (pre : List Bool) :
    ∀ e ∈ codewords t pre, ∃ q, e.2 = pre ++ q := by
  intro e he
  rw [codewords_shift t pre] at he
  obtain ⟨e0, he0, heq⟩ := List.mem_map.mp he
  exact ⟨e0.2, by rw [← heq]⟩

theorem codewords_pairwise_free (t : HuffmanNode) :
    ∀ pre, List.Pairwise
      (fun e1 e2 : Int × List Bool => ¬ e1.2 <+: e2.2 ∧ ¬ e2.2 <+: e1.2)
      (codewords t pre) := by
  induction t with
  | leaf c n =>
      intro pre
      simp only [codewords]
      split
      · exact List.Pairwise.nil
      · simp
  | internal n z o ihz iho =>
      intro pre
      simp only [codewords]
      rw [List.pairwise_append]
      refine ⟨ihz _, iho _, ?_⟩
      intro e1 he1 e2 he2
      obtain ⟨q1, hq1⟩ := codewords_mem_shape z (pre ++ [false]) e1 he1
      obtain ⟨q2, hq2⟩ := codewords_mem_shape o (pre ++ [true]) e2 he2
      rw [hq1, hq2, List.append_assoc, List.append_assoc]
      constructor
      · exact append_ne_ancestor pre false true _ _ (by simp)
      · exact append_ne_ancestor pre true false _ _ (by simp)

/-! ## Decoder analysis -/

theorem consume_found (n : HuffmanNode) (bits : List Bool)
    (h : n.character ≠ 257) : consume n bits = .found n.character bits := by
  rw [consume.eq_def]
  simp [h]

theorem consume_nil (n : HuffmanNode) (h : n.character = 257) :
    consume n [] = .exhausted := by
  rw [consume.eq_def]
  simp [h]

theorem consume_cons (n : HuffmanNode) (b : Bool) (r : List Bool)
    (h : n.character = 257) :
    consume n (b :: r)
      = match n.childOf b with
        | none => .crash
        | some c => consume c r := by
  rw [consume.eq_def]
  simp [h]

theorem decodeAux_nil_internal (root cur : HuffmanNode)
    (h : cur.character = 257) : decodeAux root cur [] = some [] := by
  rw [decodeAux.eq_def]
  simp [h]

theorem decodeAux_cons_internal (root cur : HuffmanNode) (b : Bool)
    (rest : List Bool) (h : cur.character = 257) :
    decodeAux root cur (b :: rest)
      = match cur.childOf b with
        | none => none
        | some c => decodeAux root c rest := by
  rw [decodeAux.eq_def]
  simp [h]

theorem decodeAux_eos (root cur : HuffmanNode) (bits : List Bool)
    (h : cur.character = 256) : decodeAux root cur bits = some [] := by
  rw [decodeAux.eq_def]
  simp [h]

theorem decodeAux_nil_emit (root cur : HuffmanNode)
    (h257 : cur.character ≠ 257) (h256 : cur.character ≠ 256) :
    decodeAux root cur [] = some [byteOf cur.character] := by
  rw [decodeAux.eq_def]
  simp [h257, h256]

theorem decodeAux_cons_emit (root cur : HuffmanNode) (b : Bool)
    (rest : List Bool) (h257 : cur.character ≠ 257) (h256 : cur.character ≠ 256) :
    decodeAux root cur (b :: rest)
      = match root.childOf b with
        | none => none
        | some c => (decodeAux root c rest).map (byteOf cur.character :: ·) := by
  rw [decodeAux.eq_def]
  simp [h257, h256]

/-- `decode`'s loop factored through `consume`: each iteration of symbol
output corresponds to one completed root-to-symbol walk. -/
theorem decodeAux_consume (root : HuffmanNode) (hroot : root.character = 257) :
    ∀ (bits : List Bool) (cur : HuffmanNode),
      decodeAux root cur bits = decodeStep root (consume cur bits) := by
  intro bits
  induction bits with
  | nil =>
      intro cur
      by_cases h257 : cur.character = 257
      · rw [decodeAux_nil_internal root cur h257, consume_nil cur h257]
        rfl
      · rw [consume_found cur [] h257]
        by_cases h256 : cur.character = 256
        · rw [decodeAux_eos root cur [] h256]
          simp [decodeStep, h256]
        · rw [decodeAux_nil_emit root cur h257 h256]
          simp only [decodeStep, if_neg h256,
            decodeAux_nil_internal root root hroot, Option.map_some']
  | cons b rest ih =>
      intro cur
      by_cases h257 : cur.character = 257
      · rw [decodeAux_cons_internal root cur b rest h257,
            consume_cons cur b rest h257]
        cases cur.childOf b with
        | none => rfl
        | some c => exact ih c
      · rw [consume_found cur (b :: rest) h257]
        by_cases h256 : cur.character = 256
        · rw [decodeAux_eos root cur (b :: rest) h256]
          simp [decodeStep, h256]
        · rw [decodeAux_cons_emit root cur b rest h257 h256]
          simp only [decodeStep, if_neg h256,
            decodeAux_cons_internal root root b rest hroot]
          cases root.childOf b with
          | none => rfl
          | some c => rfl

theorem consume_path (t : HuffmanNode) :
    ∀ (s : Int) (p : List Bool), (s, p) ∈ codewords t [] →
      ∀ rest, consume t (p ++ rest) = .found s rest := by
  induction t with
  | leaf c n =>
      intro s p hm rest
      simp only [codewords] at hm
      split at hm
      · simp at hm
      · rename_i hc
        simp only [List.mem_singleton, Prod.mk.injEq] at hm
        obtain ⟨rfl, rfl⟩ := hm
        simp only [List.nil_append]
        exact consume_found _ _ (by simpa using hc)
  | internal n z o ihz iho =>
      intro s p hm rest
      simp only [codewords, List.nil_append, List.mem_append] at hm
      have hchar : (HuffmanNode.internal n z o).character = 257 := rfl
      rcases hm with h | h
      · rw [codewords_shift z [false]] at h
        obtain ⟨e, he, heq⟩ := List.mem_map.mp h
        obtain ⟨s0, p0⟩ := e
        simp only [Prod.mk.injEq] at heq
        obtain ⟨rfl, rfl⟩ := heq
        simp only [List.cons_append]
        rw [consume_cons _ _ _ hchar]
        exact ihz s0 p0 he rest
      · rw [codewords_shift o [true]] at h
        obtain ⟨e, he, heq⟩ := List.mem_map.mp h
        obtain ⟨s0, p0⟩ := e
        simp only [Prod.mk.injEq] at heq
        obtain ⟨rfl, rfl⟩ := heq
        simp only [List.cons_append]
        rw [consume_cons _ _ _ hchar]
        exact iho s0 p0 he rest

/-- Decoding a concatenation of codewords followed by a tail: each codeword
emits its symbol's byte, then decoding continues on the tail. -/
theorem decodeAux_flat (t : HuffmanNode) (hroot : t.character = 257) :
    ∀ (S : List Int),
      (∀ s ∈ S, s ≠ 256 ∧ ∃ p, (s, p) ∈ codewords t []) →
      ∀ (codeOf : Int → List Bool),
      (∀ s ∈ S, (s, codeOf s) ∈ codewords t []) →
      ∀ tail,
      decodeAux t t (S.flatMap codeOf ++ tail)
        = (decodeAux t t tail).map (S.map byteOf ++ ·) := by
  intro S
  induction S with
  | nil =>
      intro _ codeOf _ tail
      simp only [List.flatMap_nil, List.nil_append, List.map_nil]
      cases decodeAux t t tail <;> simp
  | cons s S ih =>
      intro hS codeOf hcode tail
      have hs := hS s (List.mem_cons_self _ _)
      have hcs := hcode s (List.mem_cons_self _ _)
      simp only [List.flatMap_cons, List.append_assoc]
      rw [decodeAux_consume t hroot]
      rw [consume_path t s (codeOf s) hcs (S.flatMap codeOf ++ tail)]
      simp only [decodeStep, if_neg hs.1]
      rw [ih (fun x hx => hS x (List.mem_cons_of_mem _ hx)) codeOf
        (fun x hx => hcode x (List.mem_cons_of_mem _ hx)) tail]
      cases decodeAux t t tail <;> simp

theorem encode_foldl_bits (em : List (Int × String)) (X : List Nat) :
    ∀ acc : String,
      bitsOfString (X.foldl (fun a c => a ++ emIndex em (charToInt c)) acc)
        = bitsOfString acc
            ++ X.flatMap (fun c => bitsOfString (emIndex em (charToInt c))) := by
  induction X with
  | nil => intro acc; simp
  | cons c X ih =>
      intro acc
      simp only [List.foldl_cons, List.flatMap_cons]
      rw [ih (acc ++ emIndex em (charToInt c)), bitsOfString_append]
      simp [List.append_assoc]

theorem encode_bits (X : List Nat) (em : List (Int × String)) :
    bitsOfString (encode X em)
      = X.flatMap (fun c => bitsOfString (emIndex em (charToInt c)))
          ++ bitsOfString (emIndex em 256) := by
  rw [encode, bitsOfString_append, encode_foldl_bits em X ""]
  simp [bitsOfString]

/-! ## Bit packing round-trip -/

theorem testBit_byteVal (l : List Bool) :
    ∀ i, (byteVal l).testBit i = l.getD i false := by
  induction l with
  | nil =>
      intro i
      simp [byteVal]
  | cons b r ih =>
      intro i
      cases i with
      | zero =>
          simp only [byteVal, List.getD_cons_zero, Nat.testBit_zero]
          cases b <;> simp [Nat.add_mul_mod_self_left]
      | succ i =>
          simp only [List.getD_cons_succ]
          rw [← ih i]
          have hdiv : ((if b then 1 else 0) + 2 * byteVal r) / 2 = byteVal r := by
            cases b <;> simp
            omega
          rw [show byteVal (b :: r) = (if b then 1 else 0) + 2 * byteVal r from rfl,
              Nat.testBit_add_one, hdiv]

theorem padded_shape (l : List Bool) (h : l.length ≤ 8) :
    l ++ List.replicate (8 - l.length) false
      = [l.getD 0 false, l.getD 1 false, l.getD 2 false, l.getD 3 false,
         l.getD 4 false, l.getD 5 false, l.getD 6 false, l.getD 7 false] := by
  rcases l with - | ⟨b0, l⟩
  · rfl
  rcases l with - | ⟨b1, l⟩
  · rfl
  rcases l with - | ⟨b2, l⟩
  · rfl
  rcases l with - | ⟨b3, l⟩
  · rfl
  rcases l with - | ⟨b4, l⟩
  · rfl
  rcases l with - | ⟨b5, l⟩
  · rfl
  rcases l with - | ⟨b6, l⟩
  · rfl
  rcases l with - | ⟨b7, l⟩
  · rfl
  rcases l with - | ⟨b8, l⟩
  · rfl
  · simp at h

theorem unpackByte_byteVal (l : List Bool) (h : l.length ≤ 8) :
    unpackByte (byteVal l) = l ++ List.replicate (8 - l.length) false := by
  rw [padded_shape l h]
  simp only [unpackByte, testBit_byteVal]

theorem packAux_congr :
    ∀ (f1 : Nat) (l : List Bool), l.length ≤ f1 → ∀ f2, l.length ≤ f2 →
      packAux f1 l = packAux f2 l := by
  intro f1
  induction f1 with
  | zero =>
      intro l h1 f2 h2
      have : l = [] := List.length_eq_zero.mp (by omega)
      subst this
      cases f2 <;> rfl
  | succ g1 ih =>
      intro l h1 f2 h2
      cases l with
      | nil => cases f2 <;> rfl
      | cons b r =>
          cases f2 with
          | zero => simp at h2
          | succ g2 =>
              simp only [packAux]
              congr 1
              refine ih _ ?_ _ ?_ <;>
                (simp only [List.drop_succ_cons, List.length_drop,
                  List.length_cons] at h1 h2 ⊢; omega)

theorem pack_eq (l : List Bool) :
    pack l = match l with
      | [] => []
      | b :: r => byteVal ((b :: r).take 8) :: pack ((b :: r).drop 8) := by
  cases l with
  | nil => rfl
  | cons b r =>
      simp only [pack, List.length_cons, packAux]
      congr 1
      refine packAux_congr _ _ ?_ _ ?_ <;>
        (simp only [List.drop_succ_cons, List.length_drop, List.length_cons]; omega)

theorem unpack_pack_aux :
    ∀ (n : Nat) (bits : List Bool), bits.length ≤ n →
    unpack (pack bits)
      = bits ++ List.replicate ((8 - bits.length % 8) % 8) false := by
  intro n
  induction n with
  | zero =>
      intro bits h
      have : bits = [] := List.length_eq_zero.mp (by omega)
      subst this
      rfl
  | succ n ih =>
      intro bits h
      cases bits with
      | nil => rfl
      | cons b r =>
          rw [pack_eq, unpack, List.flatMap_cons, ← unpack]
          rw [ih ((b :: r).drop 8) (by
            simp only [List.drop_succ_cons, List.length_drop, List.length_cons] at h ⊢
            omega)]
          rw [unpackByte_byteVal _ (by
            rw [List.length_take]
            exact Nat.min_le_left _ _)]
          by_cases hle : (b :: r).length ≤ 8
          · have hdrop : (b :: r).drop 8 = [] := List.drop_eq_nil_of_le hle
            rw [hdrop, List.take_of_length_le hle]
            have h1 : 1 ≤ (b :: r).length := by simp
            simp only [List.length_nil, List.append_assoc, Nat.zero_mod, Nat.sub_zero,
              Nat.mod_self, List.replicate_zero, List.append_nil]
            congr 1
            congr 1
            omega
          · push_neg at hle
            have htl : ((b :: r).take 8).length = 8 := by
              rw [List.length_take]
              omega
            rw [htl]
            simp only [Nat.sub_self, List.replicate_zero, List.nil_append,
              List.append_nil, List.append_assoc]
            rw [← List.append_assoc, List.take_append_drop]
            congr 2
            rw [List.length_drop]
            omega

theorem unpack_pack (bits : List Bool) :
    unpack (pack bits) = bits ++ List.replicate ((8 - bits.length % 8) % 8) false :=
  unpack_pack_aux bits.length bits le_rfl

/-! ## Frequency map lemmas -/

theorem char_to_hash_eq (c : Nat) (h : hashmap) :
    char_to_hash c h = h.put (charToInt c) (h.getVal (charToInt c) + 1) := by
  rw [char_to_hash]
  split
  · rfl
  · rename_i hnc
    have hfind : chainFind (charToInt c) (h.buckets (bucketOf (charToInt c)))
        = none := by
      rw [containsKey_iff_chainFind] at hnc
      exact Option.not_isSome_iff_eq_none.mp (by simpa using hnc)
    rw [hashmap.getVal, hfind]
    rfl

theorem containsKey_put (m : hashmap) (k0 v k : Int) :
    (m.put k0 v).containsKey k = (k = k0 || m.containsKey k) := by
  by_cases h : k = k0
  · subst h
    simp [containsKey_put_self]
  · rw [containsKey_put_other _ _ _ _ h]
    simp [h]

theorem freqFold_containsKey (X : List Nat) :
    ∀ (m : hashmap) (k : Int),
      (X.foldl (fun m c => char_to_hash c m) m).containsKey k
        = (m.containsKey k || X.any (fun b => charToInt b = k)) := by
  induction X with
  | nil => intro m k; simp
  | cons c X ih =>
      intro m k
      simp only [List.foldl_cons, List.any_cons]
      rw [ih, char_to_hash_eq, containsKey_put]
      by_cases h : k = charToInt c
      · subst h; simp
      · have h2 : ¬ (charToInt c = k) := fun hh => h hh.symm
        simp [h, h2]

theorem freqFold_getVal (X : List Nat) :
    ∀ (m : hashmap) (k : Int),
      (X.foldl (fun m c => char_to_hash c m) m).getVal k
        = m.getVal k + (X.countP (fun b => charToInt b = k) : Int) := by
  induction X with
  | nil => intro m k; simp
  | cons c X ih =>
      intro m k
      simp only [List.foldl_cons]
      rw [ih, char_to_hash_eq]
      by_cases h : k = charToInt c
      · subst h
        rw [getVal_put_self, List.countP_cons]
        simp only [decide_eq_true_eq, if_true]
        push_cast
        ring
      · rw [getVal_put_other _ _ _ _ h, List.countP_cons]
        have h2 : ¬ (charToInt c = k) := fun hh => h hh.symm
        simp only [decide_eq_true_eq, if_neg h2, Nat.add_zero]

theorem WF_freqFold (X : List Nat) :
    ∀ (m : hashmap), m.WF → (X.foldl (fun m c => char_to_hash c m) m).WF := by
  induction X with
  | nil => intro m h; exact h
  | cons c X ih =>
      intro m h
      simp only [List.foldl_cons]
      rw [char_to_hash_eq]
      exact ih _ (WF_put _ _ _ h)

theorem WF_buildFrequencyMap (X : List Nat) :
    (buildFrequencyMap X emptyHashmap).WF :=
  WF_put _ _ _ (WF_freqFold X emptyHashmap WF_empty)

theorem buildFrequencyMap_containsKey (X : List Nat) (k : Int) :
    (buildFrequencyMap X emptyHashmap).containsKey k
      = (k = 256 || X.any (fun b => charToInt b = k)) := by
  rw [buildFrequencyMap, containsKey_put, freqFold_containsKey]
  have : emptyHashmap.containsKey k = false := by
    simp [hashmap.containsKey, emptyHashmap]
  rw [this]
  simp

theorem buildFrequencyMap_getVal_eos (X : List Nat) :
    (buildFrequencyMap X emptyHashmap).getVal 256 = 1 := by
  rw [buildFrequencyMap, getVal_put_self]

theorem charToInt_lt (b : Nat) (h : b < 256) :
    -128 ≤ charToInt b ∧ charToInt b ≤ 127 := by
  rw [charToInt]
  split <;> omega

theorem byteOf_charToInt (b : Nat) (h : b < 256) : byteOf (charToInt b) = b := by
  rw [charToInt, byteOf]
  split <;> omega

theorem buildFrequencyMap_getVal_byte (X : List Nat) (k : Int) (hk : k ≠ 256) :
    (buildFrequencyMap X emptyHashmap).getVal k
      = (X.countP (fun b => charToInt b = k) : Int) := by
  rw [buildFrequencyMap, getVal_put_other _ _ _ _ hk, freqFold_getVal]
  have : emptyHashmap.getVal k = 0 := by
    simp [hashmap.getVal, emptyHashmap, chainFind]
  rw [this]
  ring

theorem keys_nodup (m : hashmap) (hwf : m.WF) : m.keys.Nodup := by
  rw [hashmap.keys, List.nodup_flatMap]
  refine ⟨fun i _ => (hwf.1 i).1, ?_⟩
  refine List.Pairwise.imp ?_ (List.nodup_finRange 10)
  intro i j hne a hai haj
  obtain ⟨p, hp, hpe⟩ := List.mem_map.mp hai
  obtain ⟨q, hq, hqe⟩ := List.mem_map.mp haj
  have hi := (hwf.1 i).2 p hp
  have hj := (hwf.1 j).2 q hq
  rw [hpe] at hi
  rw [hqe] at hj
  exact hne (hi ▸ hj ▸ rfl)

theorem two_le_length_of_mem (l : List Int) (a b : Int)
    (ha : a ∈ l) (hb : b ∈ l) (hne : a ≠ b) : 2 ≤ l.length := by
  cases l with
  | nil => simp at ha
  | cons x t =>
      cases t with
      | nil =>
          simp only [List.mem_singleton] at ha hb
          exact absurd (ha.trans hb.symm) hne
      | cons y u => simp

/-! ## Round-trip assembly -/

theorem flatMap_map_charToInt (em : List (Int × String)) (X : List Nat) :
    X.flatMap (fun c => bitsOfString (emIndex em (charToInt c)))
      = (X.map charToInt).flatMap (fun s => bitsOfString (emIndex em s)) := by
  induction X with
  | nil => rfl
  | cons c Xr ih => simp only [List.flatMap_cons, List.map_cons, ih]

theorem roundtrip_main (X : List Nat) (hX : ∀ b ∈ X, b < 256) (hXe : X ≠ []) :
    ∃ c, compress X = some c ∧ decompress c = some X := by
  set m := buildFrequencyMap X emptyHashmap with hm
  have hwf : m.WF := WF_buildFrequencyMap X
  have h256k : (256 : Int) ∈ m.keys := by
    rw [mem_keys_iff m hwf, hm, buildFrequencyMap_containsKey]
    simp
  obtain ⟨b0, hb0⟩ := List.exists_mem_of_ne_nil X hXe
  have hb0lt : b0 < 256 := hX b0 hb0
  have hbk : charToInt b0 ∈ m.keys := by
    rw [mem_keys_iff m hwf, hm, buildFrequencyMap_containsKey, Bool.or_eq_true]
    refine Or.inr ?_
    rw [List.any_eq_true]
    exact ⟨b0, hb0, by simp⟩
  have hb0ne : charToInt b0 ≠ 256 := by
    rw [charToInt]
    split <;> omega
  have h2 : 2 ≤ m.keys.length := two_le_length_of_mem _ _ _ hbk h256k hb0ne
  have hkeysne : m.keys ≠ [] := by
    intro h
    rw [h] at h2
    simp at h2
  obtain ⟨t, ht, hleaves, hsymb, hok, hchar⟩ := buildEncodingTree_spec m hkeysne
  have hroot : t.character = 257 := hchar h2
  have hnds : (symbols t).Nodup := hsymb.nodup_iff.mpr (keys_nodup m hwf)
  have h257 : (257 : Int) ∉ symbols t := by
    intro hmem
    have hmk : (257 : Int) ∈ m.keys := hsymb.mem_iff.mp hmem
    rw [mem_keys_iff m hwf, hm, buildFrequencyMap_containsKey,
      Bool.or_eq_true] at hmk
    rcases hmk with h | h
    · simp at h
    · obtain ⟨b, hb, he⟩ := List.any_eq_true.mp h
      simp only [decide_eq_true_eq] at he
      have hblt := hX b hb
      rw [charToInt] at he
      split at he <;> omega
  have h256s : (256 : Int) ∈ symbols t := hsymb.mem_iff.mpr h256k
  set em := buildEncodingMap t with hem
  have hcodeOf : ∀ s ∈ symbols t, (s, bitsOfString (emIndex em s)) ∈ codewords t [] := by
    intro s hs
    obtain ⟨w, hw⟩ := codeEntries_complete t h257 s hs
    have hf := emFind_of_codeword t hnds h257 s w hw
    have hidx : emIndex em s = w := by rw [emIndex, hem, hf]; rfl
    rw [hidx]
    have hmem : (s, bitsOfString w)
        ∈ (codeEntries t "").map (fun e => (e.1, bitsOfString e.2)) :=
      List.mem_map.mpr ⟨(s, w), hw, rfl⟩
    rw [codeEntries_bits t ""] at hmem
    exact hmem
  have hmemX : ∀ s ∈ X.map charToInt, s ∈ symbols t := by
    intro s hs
    obtain ⟨b, hb, rfl⟩ := List.mem_map.mp hs
    rw [hsymb.mem_iff, mem_keys_iff m hwf, hm, buildFrequencyMap_containsKey,
      Bool.or_eq_true]
    refine Or.inr ?_
    rw [List.any_eq_true]
    exact ⟨b, hb, by simp⟩
  have hne256X : ∀ s ∈ X.map charToInt, s ≠ 256 := by
    intro s hs
    obtain ⟨b, hb, rfl⟩ := List.mem_map.mp hs
    have hblt := hX b hb
    rw [charToInt]
    split <;> omega
  set bits := bitsOfString (encode X em) with hbits
  set pads := List.replicate ((8 - bits.length % 8) % 8) false with hpads
  have hdecode : decodeAux t t (bits ++ pads) = some X := by
    rw [hbits, encode_bits, flatMap_map_charToInt, List.append_assoc]
    rw [decodeAux_flat t hroot (X.map charToInt)
      (fun s hs => ⟨hne256X s hs, _, hcodeOf s (hmemX s hs)⟩)
      (fun s => bitsOfString (emIndex em s))
      (fun s hs => hcodeOf s (hmemX s hs))
      (bitsOfString (emIndex em 256) ++ pads)]
    rw [decodeAux_consume t hroot,
        consume_path t 256 (bitsOfString (emIndex em 256)) (hcodeOf 256 h256s) pads]
    have hmapX : List.map byteOf (List.map charToInt X) = X := by
      rw [List.map_map]
      refine (List.map_congr_left ?_).trans (List.map_id X)
      intro b hb
      simp [Function.comp_apply, byteOf_charToInt b (hX b hb)]
    simp only [decodeStep]
    simp [hmapX]
  have hcompress : compress X = some (m.serializeBytes ++ pack bits) := by
    rw [compress]
    simp only [← hm, ht, Option.map_some']
  refine ⟨m.serializeBytes ++ pack bits, hcompress, ?_⟩
  rw [decompress, deserializeInto_append emptyHashmap m (pack bits)]
  simp only [Option.bind]
  rw [rebuild_eq m hwf, ht]
  simp only [Option.bind]
  rw [decode, unpack_pack]
  exact hdecode

/-! ## Determinism of iteration order (key shape) -/

theorem keys_eq_keyShape (m : hashmap) :
    m.keys = (List.finRange 10).flatMap (keyShape m) := rfl

theorem keyShape_put (m : hashmap) (k v : Int) :
    keyShape (m.put k v)
      = Function.update (keyShape m) (bucketOf k)
          (if k ∈ keyShape m (bucketOf k) then keyShape m (bucketOf k)
           else keyShape m (bucketOf k) ++ [k]) := by
  funext i
  by_cases hi : i = bucketOf k
  · subst hi
    simp only [keyShape, hashmap.put, Function.update_same]
    exact putChain_map_fst k v _
  · simp only [keyShape, hashmap.put, Function.update_noteq hi]

theorem keyShape_fold (ops1 ops2 : List (Int × Int))
    (hk : ops1.map Prod.fst = ops2.map Prod.fst) :
    ∀ (m1 m2 : hashmap), keyShape m1 = keyShape m2 →
      keyShape (ops1.foldl (fun m p => m.put p.1 p.2) m1)
        = keyShape (ops2.foldl (fun m p => m.put p.1 p.2) m2) := by
  induction ops1 generalizing ops2 with
  | nil =>
      cases ops2 with
      | nil => intro m1 m2 h; exact h
      | cons q qs => simp at hk
  | cons p ps ih =>
      cases ops2 with
      | nil => simp at hk
      | cons q qs =>
          simp only [List.map_cons, List.cons.injEq] at hk
          intro m1 m2 h
          simp only [List.foldl_cons]
          refine ih qs hk.2 _ _ ?_
          rw [keyShape_put, keyShape_put, h, hk.1]

/-! ## Frame lemmas for folding puts over an existing map -/

theorem fold_put_frame (ps : List (Int × Int)) :
    ∀ (a : hashmap) (k : Int), (∀ p ∈ ps, p.1 ≠ k) → a.containsKey k →
      (ps.foldl (fun m p => m.put p.1 p.2) a).get k = a.get k
      ∧ (ps.foldl (fun m p => m.put p.1 p.2) a).getVal k = a.getVal k
      ∧ (ps.foldl (fun m p => m.put p.1 p.2) a).containsKey k = true := by
  induction ps with
  | nil => intro a k _ hc; exact ⟨rfl, rfl, hc⟩
  | cons p ps ih =>
      intro a k hne hc
      have hpk : p.1 ≠ k := hne p (List.mem_cons_self _ _)
      have hkp : k ≠ p.1 := fun h => hpk h.symm
      simp only [List.foldl_cons]
      have hc' : (a.put p.1 p.2).containsKey k = true := by
        rw [containsKey_put_other _ _ _ _ hkp]
        exact hc
      obtain ⟨h1, h2, h3⟩ := ih (a.put p.1 p.2) k
        (fun q hq => hne q (List.mem_cons_of_mem _ hq)) hc'
      refine ⟨?_, ?_, h3⟩
      · rw [h1, get_put_of_containsKey _ _ _ _ hkp hc]
      · rw [h2, getVal_put_other _ _ _ _ hkp]

theorem fold_put_getVal_mem (ps : List (Int × Int)) :
    ∀ (a : hashmap) (k v : Int), (ps.map Prod.fst).Nodup → (k, v) ∈ ps →
      (ps.foldl (fun m p => m.put p.1 p.2) a).getVal k = v
      ∧ (ps.foldl (fun m p => m.put p.1 p.2) a).containsKey k = true := by
  induction ps with
  | nil => intro a k v _ hm; simp at hm
  | cons p ps ih =>
      intro a k v hnd hm
      simp only [List.map_cons, List.nodup_cons] at hnd
      simp only [List.foldl_cons]
      rcases List.mem_cons.mp hm with heq | hmem
      · obtain ⟨k0, v0⟩ := p
        rw [Prod.mk.injEq] at heq
        obtain ⟨rfl, rfl⟩ := heq
        have hnotin : ∀ q ∈ ps, q.1 ≠ k := by
          intro q hq hh
          have h1 : q.1 ∈ ps.map Prod.fst := List.mem_map_of_mem Prod.fst hq
          rw [hh] at h1
          exact hnd.1 h1
        have hc : (a.put k v).containsKey k = true := containsKey_put_self _ _ _
        obtain ⟨-, h2, h3⟩ := fold_put_frame ps (a.put k v) k hnotin hc
        rw [h2, getVal_put_self]
        exact ⟨rfl, h3⟩
      · exact ih (a.put p.1 p.2) k v hnd.2 hmem

theorem pairs_map_fst (m : hashmap) : m.pairs.map Prod.fst = m.keys := by
  rw [hashmap.pairs, List.map_map]
  refine (List.map_congr_left ?_).trans (List.map_id _)
  intro k _
  rfl

theorem mem_pairs_of_mem_keys (m : hashmap) (k : Int) (hk : k ∈ m.keys) :
    (k, m.getVal k) ∈ m.pairs :=
  List.mem_map.mpr ⟨k, hk, rfl⟩

theorem mem_of_emFind (l : List (Int × String)) (s : Int) (w : String)
    (h : emFind l s = some w) : (s, w) ∈ l := by
  rw [emFind] at h
  cases hf : l.find? (fun p => p.1 = s) with
  | none => rw [hf] at h; simp at h
  | some p =>
      rw [hf] at h
      simp only [Option.map_some', Option.some.injEq] at h
      have hm := List.mem_of_find?_eq_some hf
      have hp := List.find?_some hf
      simp only [decide_eq_true_eq] at hp
      obtain ⟨p1, p2⟩ := p
      simp only at hp h
      rw [← hp, ← h] at *
      exact hm

theorem buildEncodingTree_singleton (m : hashmap) (k : Int)
    (hk : m.keys = [k]) :
    buildEncodingTree m = some (.leaf k (m.getVal k)) := by
  rw [buildEncodingTree, hk]
  simp only [List.foldl_cons, List.foldl_nil, pqInsert, build_htree]
  rfl

/-! ## Claim theorems -/

/-- C1: for every finite byte sequence X (including the empty sequence),
decompressing the container produced by compressing X yields exactly X,
using the tree rebuilt from the container's own header. -/
theorem C1_compress_decompress_roundtrip (X : List Nat)
    (hX : ∀ b ∈ X, b < 256) :
    ∃ c, compress X = some c ∧ decompress c = some X := by
  by_cases hXe : X = []
  · subst hXe
    exact ⟨[123, 50, 53, 54, 58, 49, 125], by decide, by decide⟩
  · exact roundtrip_main X hX hXe

/-- Witness for C1 at the concrete input [97, 98, 97]. -/
theorem C1_compress_decompress_roundtrip_witness :
    ∃ c, compress [97, 98, 97] = some c ∧ decompress c = some [97, 98, 97] :=
  C1_compress_decompress_roundtrip [97, 98, 97] (by decide)

/-- C2 counterexample: a container with a well-formed header
(`{98:1, 97:2, 256:1}`) whose payload is truncated before the end-of-stream
codeword never yields an error: `decompress` returns the decoded bytes as an
ordinary success value (`some`), and `decode` on payload bits that stop
mid-codeword likewise returns the partially decoded sequence as a success. -/
theorem C2_truncated_counterexample :
    decompress ([123, 57, 56, 58, 49, 44, 32, 57, 55, 58, 50, 44, 32,
        50, 53, 54, 58, 49, 125] ++ [1])
      = some [98, 97, 97, 97, 97, 97, 97]
    ∧ decode (HuffmanNode.internal 4 (.leaf 97 2)
        (.internal 2 (.leaf 98 1) (.leaf 256 1))) [false, true]
      = some [97] := by
  constructor
  · decide
  · decide

/-- C2 amended: when the payload bits are exhausted before the end-of-stream
codeword completes, `decode` terminates normally and returns the symbols
decoded so far as an ordinary success value — no `TruncatedPayload` (or any
other) error exists in the decoder. -/
theorem C2_truncation_returns_success (t : HuffmanNode)
    (hroot : t.character = 257) (S : List Int) (codeOf : Int → List Bool)
    (hS : ∀ s ∈ S, s ≠ 256)
    (hcode : ∀ s ∈ S, (s, codeOf s) ∈ codewords t [])
    (q : List Bool) (hq : consume t q = .exhausted) :
    decode t (S.flatMap codeOf ++ q) = some (S.map byteOf) := by
  rw [decode, decodeAux_flat t hroot S
      (fun s hs => ⟨hS s hs, codeOf s, hcode s hs⟩) codeOf hcode q,
    decodeAux_consume t hroot, hq]
  simp [decodeStep]

/-- Witness for the amended C2: decoding the codeword of symbol 97 followed
by a lone bit that stops mid-codeword yields `some [97]`. -/
theorem C2_truncation_returns_success_witness :
    decode (HuffmanNode.internal 4 (.leaf 97 2)
        (.internal 2 (.leaf 98 1) (.leaf 256 1)))
      (([97] : List Int).flatMap (fun _ => [false]) ++ [true])
      = some (([97] : List Int).map byteOf) :=
  C2_truncation_returns_success
    (HuffmanNode.internal 4 (.leaf 97 2)
      (.internal 2 (.leaf 98 1) (.leaf 256 1)))
    rfl [97] (fun _ => [false]) (by decide) (by decide) [true] (by decide)

/-- C3: the claim fails on the code — `get` on a key that is absent from a
non-empty bucket falls through the chain scan and returns 0 as an ordinary
value (the source comments `// this should never be called` on that path).
Keys 1 and 8 both hash to bucket 5, so after `put(1, 5)` the lookup
`get(8)` silently returns 0 instead of failing, while `get(1)` returns the
stored value. -/
theorem C3_get_absent_key_returns_zero :
    bucketOf 8 = bucketOf 1
    ∧ (emptyHashmap.put 1 5).containsKey 8 = false
    ∧ (emptyHashmap.put 1 5).get 8 = Except.ok 0
    ∧ (emptyHashmap.put 1 5).get 1 = Except.ok 5
    ∧ emptyHashmap.get 8 = Except.error "Error: Key is not in map." := by
  refine ⟨by decide, by decide, ?_, ?_, ?_⟩ <;> rfl

/-- C4 counterexample: for the input consisting of the single byte 255, the
frequency map does not contain the key 255 at all; the byte is counted under
the key -1 (signed-`char` conversion), which lies outside [0, 256]. -/
theorem C4_signed_char_counterexample :
    (buildFrequencyMap [255] emptyHashmap).containsKey 255 = false
    ∧ (buildFrequencyMap [255] emptyHashmap).containsKey (-1) = true
    ∧ (buildFrequencyMap [255] emptyHashmap).keys = [-1, 256] := by
  refine ⟨by decide, by decide, by decide⟩

/-- C4 amended: the frequency analyzer keys each occurring byte `b` by its
signed-`char` value `charToInt b` (`b` itself for `b < 128`, `b - 256`
otherwise), mapping it to the byte's number of occurrences; the end-of-stream
symbol 256 is present with count 1; and every key lies in
[-128, 127] ∪ {256}. -/
theorem C4_frequency_map_signed (X : List Nat) (hX : ∀ b ∈ X, b < 256) :
    (∀ k, (buildFrequencyMap X emptyHashmap).containsKey k
        ↔ (k = 256 ∨ ∃ b ∈ X, charToInt b = k))
    ∧ (buildFrequencyMap X emptyHashmap).getVal 256 = 1
    ∧ (∀ b ∈ X, (buildFrequencyMap X emptyHashmap).getVal (charToInt b)
        = (X.count b : Int))
    ∧ (∀ k, (buildFrequencyMap X emptyHashmap).containsKey k →
        (-128 ≤ k ∧ k ≤ 127) ∨ k = 256) := by
  refine ⟨?_, buildFrequencyMap_getVal_eos X, ?_, ?_⟩
  · intro k
    rw [buildFrequencyMap_containsKey, Bool.or_eq_true]
    constructor
    · rintro (h | h)
      · left; simpa using h
      · right
        obtain ⟨b, hb, he⟩ := List.any_eq_true.mp h
        exact ⟨b, hb, by simpa using he⟩
    · rintro (h | ⟨b, hb, he⟩)
      · left; simpa using h
      · right
        rw [List.any_eq_true]
        exact ⟨b, hb, by simpa using he⟩
  · intro b hb
    have hblt := hX b hb
    have hne : charToInt b ≠ 256 := by
      rw [charToInt]
      split <;> omega
    rw [buildFrequencyMap_getVal_byte X _ hne]
    congr 1
    rw [List.count_eq_countP]
    refine List.countP_congr ?_
    intro y hy
    have hylt := hX y hy
    simp only [decide_eq_true_eq, beq_iff_eq]
    rw [charToInt, charToInt]
    constructor
    · intro h
      split at h <;> split at h <;> omega
    · intro h
      subst h
      rfl
  · intro k hk
    rw [buildFrequencyMap_containsKey, Bool.or_eq_true] at hk
    rcases hk with h | h
    · right; simpa using h
    · left
      obtain ⟨b, hb, he⟩ := List.any_eq_true.mp h
      simp only [decide_eq_true_eq] at he
      have := hX b hb
      rw [charToInt] at he
      split at he <;> omega

/-- Witness for the amended C4 at the concrete input [255, 255, 10]. -/
theorem C4_frequency_map_signed_witness :
    (∀ k, (buildFrequencyMap [255, 255, 10] emptyHashmap).containsKey k
        ↔ (k = 256 ∨ ∃ b ∈ [255, 255, 10], charToInt b = k))
    ∧ (buildFrequencyMap [255, 255, 10] emptyHashmap).getVal 256 = 1
    ∧ (∀ b ∈ [255, 255, 10],
        (buildFrequencyMap [255, 255, 10] emptyHashmap).getVal (charToInt b)
        = (([255, 255, 10] : List Nat).count b : Int))
    ∧ (∀ k, (buildFrequencyMap [255, 255, 10] emptyHashmap).containsKey k →
        (-128 ≤ k ∧ k ≤ 127) ∨ k = 256) :=
  C4_frequency_map_signed [255, 255, 10] (by decide)

/-- C5: the codeword set produced by the Encoding Map Builder from a tree
built over any analyzer-produced table is prefix-free — for two distinct
symbols, neither one's codeword string is a prefix of the other's.  The
hypotheses (well-formed table, at least one key, no key 257) hold for every
Symbol Table the Frequency Analyzer produces. -/
theorem C5_codeword_no_ancestor (m : hashmap) (t : HuffmanNode)
    (hwf : m.WF) (hne : m.keys ≠ []) (h257k : (257 : Int) ∉ m.keys)
    (ht : buildEncodingTree m = some t)
    (s1 s2 : Int) (w1 w2 : String)
    (h1 : emFind (buildEncodingMap t) s1 = some w1)
    (h2 : emFind (buildEncodingMap t) s2 = some w2)
    (hs : s1 ≠ s2) :
    ¬ w1.data <+: w2.data := by
  obtain ⟨t', ht', hleaves, hsymb, hok, hchar⟩ := buildEncodingTree_spec m hne
  have heq : t' = t := by
    rw [ht] at ht'
    exact (Option.some.injEq _ _).mp ht'.symm
  rw [heq] at hleaves hsymb hok
  have hnds : (symbols t).Nodup := hsymb.nodup_iff.mpr (keys_nodup m hwf)
  have h257 : (257 : Int) ∉ symbols t := fun h => h257k (hsymb.mem_iff.mp h)
  rw [buildEncodingMap_eq t hnds] at h1 h2
  have hm1 := mem_of_emFind _ _ _ h1
  have hm2 := mem_of_emFind _ _ _ h2
  have hb1 : (s1, bitsOfString w1) ∈ codewords t [] := by
    have hmm : (s1, bitsOfString w1)
        ∈ (codeEntries t "").map (fun e => (e.1, bitsOfString e.2)) :=
      List.mem_map.mpr ⟨(s1, w1), hm1, rfl⟩
    rw [codeEntries_bits t ""] at hmm
    exact hmm
  have hb2 : (s2, bitsOfString w2) ∈ codewords t [] := by
    have hmm : (s2, bitsOfString w2)
        ∈ (codeEntries t "").map (fun e => (e.1, bitsOfString e.2)) :=
      List.mem_map.mpr ⟨(s2, w2), hm2, rfl⟩
    rw [codeEntries_bits t ""] at hmm
    exact hmm
  have hpair := codewords_pairwise_free t []
  have hsymm : Symmetric (fun e1 e2 : Int × List Bool =>
      ¬ e1.2 <+: e2.2 ∧ ¬ e2.2 <+: e1.2) := fun a b h => ⟨h.2, h.1⟩
  have hne12 : (s1, bitsOfString w1) ≠ (s2, bitsOfString w2) := by
    intro h
    exact hs (congrArg Prod.fst h)
  have hfree := hpair.forall hsymm hb1 hb2 hne12
  rintro ⟨tail, htail⟩
  refine hfree.1 ⟨tail.map (fun c => !(c = '0')), ?_⟩
  simp only [bitsOfString, ← List.map_append, htail]

/-- Witness for C5: in the tree for input "aba", symbols 97 and 98 carry the
codewords "0" and "10", and neither is a prefix of the other. -/
theorem C5_codeword_no_ancestor_witness :
    ¬ ("0" : String).data <+: ("10" : String).data :=
  C5_codeword_no_ancestor (buildFrequencyMap [97, 98, 97] emptyHashmap)
    (HuffmanNode.internal 4 (.leaf 97 2)
      (.internal 2 (.leaf 98 1) (.leaf 256 1)))
    (WF_buildFrequencyMap [97, 98, 97]) (by decide) (by decide) (by decide)
    97 98 "0" "10" (by decide) (by decide) (by decide)

/-- C6: for every well-formed table with at least one entry, the built tree
has exactly one leaf per table key — the leaves are a permutation of the
table's (key, count) pairs, and the keys are pairwise distinct; every
internal node's count is the sum of its children's counts (`internalsOK`;
those nodes carry `character = 257`, the not-a-symbol marker, exactly as
`build_htree` writes it); and a one-key table yields a single leaf with no
internal nodes (zero merges). -/
theorem C6_tree_shape (m : hashmap) (t : HuffmanNode) (hwf : m.WF)
    (hne : m.keys ≠ []) (ht : buildEncodingTree m = some t) :
    (leaves t).Perm m.pairs
    ∧ m.keys.Nodup
    ∧ internalsOK t = true
    ∧ (∀ k, m.keys = [k] → t = .leaf k (m.getVal k)) := by
  obtain ⟨t', ht', hleaves, hsymb, hok, hchar⟩ := buildEncodingTree_spec m hne
  have heq : t' = t := by
    rw [ht] at ht'
    exact (Option.some.injEq _ _).mp ht'.symm
  rw [heq] at hleaves hsymb hok
  refine ⟨hleaves, keys_nodup m hwf, hok, ?_⟩
  intro k hk
  have hsing := buildEncodingTree_singleton m k hk
  rw [ht] at hsing
  exact (Option.some.injEq _ _).mp hsing

/-- Witness for C6 at the table of the empty input (single key 256). -/
theorem C6_tree_shape_witness :
    (leaves (.leaf 256 1)).Perm (buildFrequencyMap [] emptyHashmap).pairs
    ∧ (buildFrequencyMap [] emptyHashmap).keys.Nodup
    ∧ internalsOK (.leaf 256 1) = true
    ∧ (∀ k, (buildFrequencyMap [] emptyHashmap).keys = [k] →
        (HuffmanNode.leaf 256 1)
          = .leaf k ((buildFrequencyMap [] emptyHashmap).getVal k)) :=
  C6_tree_shape (buildFrequencyMap [] emptyHashmap) (.leaf 256 1)
    (WF_buildFrequencyMap []) (by decide) (by decide)

/-- C7: serialization emits `{` (byte 123), the `key:value` entries in
iteration order joined by `", "` with no trailing separator, then `}`
(byte 125); deserializing that text into a fresh table reproduces the table
exactly; and the empty-table text `{}` parses without error into an empty
table.  Well-formedness holds for every table the program constructs. -/
theorem C7_header_roundtrip (m : hashmap) (hwf : m.WF) :
    m.serializeBytes = 123 :: joinEntries m.pairs ++ [125]
    ∧ emptyHashmap.deserializeInto m.serializeBytes = some (m, [])
    ∧ emptyHashmap.deserializeInto [123, 125] = some (emptyHashmap, []) := by
  refine ⟨rfl, ?_, rfl⟩
  have h := deserializeInto_append emptyHashmap m []
  rw [List.append_nil] at h
  rw [h, rebuild_eq m hwf]

/-- Witness for C7 at the table of the input [97]. -/
theorem C7_header_roundtrip_witness :
    (buildFrequencyMap [97] emptyHashmap).serializeBytes
      = 123 :: joinEntries (buildFrequencyMap [97] emptyHashmap).pairs ++ [125]
    ∧ emptyHashmap.deserializeInto
        (buildFrequencyMap [97] emptyHashmap).serializeBytes
      = some (buildFrequencyMap [97] emptyHashmap, [])
    ∧ emptyHashmap.deserializeInto [123, 125] = some (emptyHashmap, []) :=
  C7_header_roundtrip (buildFrequencyMap [97] emptyHashmap)
    (WF_buildFrequencyMap [97])

/-- C8: for the empty input, the frequency table is exactly (256, 1), the
tree is the single leaf 256, the encoding map assigns 256 the empty
codeword, encoding appends zero bits (bit count 0), and decoding matches
the end-of-stream leaf at the root immediately, returning empty output
whatever bits follow (none are consumed). -/
theorem C8_empty_input_pipeline :
    (buildFrequencyMap [] emptyHashmap).pairs = [(256, 1)]
    ∧ buildEncodingTree (buildFrequencyMap [] emptyHashmap)
        = some (.leaf 256 1)
    ∧ buildEncodingMap (.leaf 256 1) = [(256, "")]
    ∧ encode [] (buildEncodingMap (.leaf 256 1)) = ""
    ∧ (encode [] (buildEncodingMap (.leaf 256 1))).length = 0
    ∧ (∀ bits, decode (.leaf 256 1) bits = some []) := by
  refine ⟨by decide, by decide, by decide, rfl, rfl, ?_⟩
  intro bits
  exact decodeAux_eos _ _ bits rfl

/-- C9: `keys()` — and hence the serialized header — is a deterministic
function of the construction history: tables built by put sequences with
the same key order have identical key iteration order (whatever the values),
and tables built by identical put sequences serialize to byte-identical
headers. -/
theorem C9_iteration_deterministic (ops1 ops2 : List (Int × Int)) :
    (ops1.map Prod.fst = ops2.map Prod.fst →
      (buildFromOps ops1).keys = (buildFromOps ops2).keys)
    ∧ (ops1 = ops2 →
      (buildFromOps ops1).serializeBytes = (buildFromOps ops2).serializeBytes) := by
  constructor
  · intro hk
    rw [keys_eq_keyShape, keys_eq_keyShape, buildFromOps, buildFromOps,
        keyShape_fold ops1 ops2 hk emptyHashmap emptyHashmap rfl]
  · intro h
    rw [h]

/-- Witness for C9: two put sequences with equal keys but different values
yield the same key order; identical sequences yield identical headers. -/
theorem C9_iteration_deterministic_witness :
    (buildFromOps [(1, 5), (11, 6)]).keys = (buildFromOps [(1, 7), (11, 8)]).keys
    ∧ (buildFromOps [(1, 5), (11, 6)]).serializeBytes
        = (buildFromOps [(1, 5), (11, 6)]).serializeBytes :=
  ⟨(C9_iteration_deterministic [(1, 5), (11, 6)] [(1, 7), (11, 8)]).1 (by decide),
   (C9_iteration_deterministic [(1, 5), (11, 6)] [(1, 5), (11, 6)]).2 rfl⟩

/-- C10: `operator>>` into a pre-populated table merges rather than replaces:
parsing a serialized table T into a map `a` puts every T entry (insert or
overwrite), while every key already present in `a` and absent from T keeps
its exact `get` behaviour and value. -/
theorem C10_deserialize_merges (a T : hashmap) (hwfT : T.WF) :
    ∃ r, a.deserializeInto T.serializeBytes = some (r, [])
      ∧ (∀ k, a.containsKey k → k ∉ T.keys →
          r.get k = a.get k ∧ r.getVal k = a.getVal k ∧ r.containsKey k = true)
      ∧ (∀ k, k ∈ T.keys → r.getVal k = T.getVal k ∧ r.containsKey k = true) := by
  refine ⟨T.pairs.foldl (fun x p => x.put p.1 p.2) a, ?_, ?_, ?_⟩
  · have h := deserializeInto_append a T []
    rw [List.append_nil] at h
    exact h
  · intro k hc hk
    have hne : ∀ p ∈ T.pairs, p.1 ≠ k := by
      intro p hp hh
      have : p.1 ∈ T.pairs.map Prod.fst := List.mem_map_of_mem Prod.fst hp
      rw [pairs_map_fst] at this
      rw [hh] at this
      exact hk this
    exact fold_put_frame T.pairs a k hne hc
  · intro k hk
    have hnd : (T.pairs.map Prod.fst).Nodup := by
      rw [pairs_map_fst]
      exact keys_nodup T hwfT
    exact fold_put_getVal_mem T.pairs a k (T.getVal k) hnd
      (mem_pairs_of_mem_keys T k hk)

/-- Witness for C10: merging the header of the table for input [97] into a
table holding key 1. -/
theorem C10_deserialize_merges_witness :
    ∃ r, (emptyHashmap.put 1 5).deserializeInto
        (buildFrequencyMap [97] emptyHashmap).serializeBytes = some (r, [])
      ∧ (∀ k, (emptyHashmap.put 1 5).containsKey k →
          k ∉ (buildFrequencyMap [97] emptyHashmap).keys →
          r.get k = (emptyHashmap.put 1 5).get k
          ∧ r.getVal k = (emptyHashmap.put 1 5).getVal k
          ∧ r.containsKey k = true)
      ∧ (∀ k, k ∈ (buildFrequencyMap [97] emptyHashmap).keys →
          r.getVal k = (buildFrequencyMap [97] emptyHashmap).getVal k
          ∧ r.containsKey k = true) :=
  C10_deserialize_merges (emptyHashmap.put 1 5)
    (buildFrequencyMap [97] emptyHashmap) (WF_buildFrequencyMap [97])
